import Mathlib

/-!
# Flat multimap (`Table.h`): a sorted-vector multimap

Shallow embedding of `Table<Key, Value>` from `Flat Multimap/Table.h`.

* The private member `_rows : std::vector<Row_t>` is a `List (Key × Value)`.
* Iterators are positions (`Nat` offsets from `begin()`); `end()` is `size()`.
* `std::lower_bound`, `std::upper_bound`, `std::sort`, `vector::insert` and
  `vector::erase` belong to the C++ standard library; they are embedded by the
  algorithms every standard library uses (bisection on a length counter) or,
  for `std::sort`, by its postcondition.
* `assert` is a checked precondition: operations guarded by one return
  `Option`, with `none` for the assertion failure.
-/

namespace FlatMultimap

/-! ## Standard-library algorithms used by `Table.h` -/

/-- Loop of `std::lower_bound(first, last, val, comp)`:
`while (len > 0) { half = len >> 1; middle = first + half;
if (comp(*middle, val)) { first = middle + 1; len = len - half - 1; } else len = half; }
return first;`.  The first argument bounds the number of iterations; the search
is started with `len` iterations available, and `len` shrinks at every turn. -/
def std_lower_bound_loop {α : Type} (comp : α → α → Bool) (xs : List α) (val : α) :
    Nat → Nat → Nat → Nat
  | 0, first, _ => first
  | fuel + 1, first, len =>
    if 0 < len then
      let half := len / 2
      let middle := first + half
      match xs[middle]? with
      | some x =>
        if comp x val then
          std_lower_bound_loop comp xs val fuel (middle + 1) (len - half - 1)
        else
          std_lower_bound_loop comp xs val fuel first half
      | none => first
    else first

/-- Embedding of `std::lower_bound(std::begin(xs), std::end(xs), val, comp)`; the
result is an offset from `begin`. -/
def std_lower_bound {α : Type} (xs : List α) (val : α) (comp : α → α → Bool) : Nat :=
  std_lower_bound_loop comp xs val xs.length 0 xs.length

/-- Loop of `std::upper_bound(first, last, val, comp)`:
`while (len > 0) { half = len >> 1; middle = first + half;
if (comp(val, *middle)) len = half; else { first = middle + 1; len = len - half - 1; } }
return first;`. -/
def std_upper_bound_loop {α : Type} (comp : α → α → Bool) (xs : List α) (val : α) :
    Nat → Nat → Nat → Nat
  | 0, first, _ => first
  | fuel + 1, first, len =>
    if 0 < len then
      let half := len / 2
      let middle := first + half
      match xs[middle]? with
      | some x =>
        if comp val x then
          std_upper_bound_loop comp xs val fuel first half
        else
          std_upper_bound_loop comp xs val fuel (middle + 1) (len - half - 1)
      | none => first
    else first

/-- Embedding of `std::upper_bound(std::begin(xs), std::end(xs), val, comp)`. -/
def std_upper_bound {α : Type} (xs : List α) (val : α) (comp : α → α → Bool) : Nat :=
  std_upper_bound_loop comp xs val xs.length 0 xs.length

/-- Embedding of `std::vector::insert(pos, x)`: `x` is placed before offset `i`. -/
def vector_insert {α : Type} (xs : List α) (i : Nat) (x : α) : List α :=
  xs.take i ++ x :: xs.drop i

/-- Embedding of `std::vector::erase(pos)`: the element at offset `i` is dropped. -/
def vector_erase {α : Type} (xs : List α) (i : Nat) : List α :=
  xs.take i ++ xs.drop (i + 1)

/-- Embedding of `operator<` of `std::pair`:
`a.first < b.first || (!(b.first < a.first) && a.second < b.second)`. -/
def pair_less {Key Value : Type} [LinearOrder Key] [LinearOrder Value]
    (a b : Key × Value) : Bool :=
  decide (a.1 < b.1) || (!decide (b.1 < a.1) && decide (a.2 < b.2))

/-- Embedding of `std::sort(first, last)` on pairs, by its postcondition: the
range is rearranged so that no element is `operator<`-less than an earlier one.
`operator<` of `std::pair` over totally ordered components is a strict total
order, so that rearrangement is unique, whichever algorithm computes it. -/
def std_sort {Key Value : Type} [LinearOrder Key] [LinearOrder Value]
    (xs : List (Key × Value)) : List (Key × Value) :=
  xs.insertionSort (fun a b => pair_less b a = false)

/-- Number of values of `size_t` (64-bit target): arithmetic on `size_t` is
modulo this number, and the `size()` of a `std::vector` is below it. -/
def size_t_modulus : Nat := 2 ^ 64

/-! ## The class `Table` -/

/-- The type `Row_t = std::pair<Key, Value>`. -/
abbrev Row_t (Key Value : Type) : Type := Key × Value

/-- The class `Table<Key, Value>`; its only member is the vector `_rows`. -/
structure Table (Key Value : Type) where
  /-- The private member `std::vector<Row_t> _rows`. -/
  _rows : List (Row_t Key Value)
  deriving DecidableEq

namespace Table

variable {Key Value : Type}

/-- Source `less_than(rhs, lhs)`: `rhs.first < lhs.first`. -/
def less_than [LinearOrder Key] (rhs lhs : Row_t Key Value) : Bool :=
  decide (rhs.1 < lhs.1)

/-- Source `compare(rhs, lhs)`: `rhs.first == lhs.first`. -/
def compare [LinearOrder Key] (rhs lhs : Row_t Key Value) : Bool :=
  decide (rhs.1 = lhs.1)

/-- The test `(index != _rows.cend()) && (index->first == key)` shared by
`remove`, `contains` and both `operator[]`. -/
def found [LinearOrder Key] (t : Table Key Value) (index : Nat) (key : Key) : Bool :=
  decide (index ≠ t._rows.length) &&
    (match t._rows[index]? with
     | some row => decide (row.1 = key)
     | none => false)

/-- Source `size()`. -/
def size (t : Table Key Value) : Nat := t._rows.length

/-- Rows visited by a traversal from `begin()` to `end()`. -/
def traversal (t : Table Key Value) : List (Row_t Key Value) := t._rows

/-- Source `lower_bound(key)`. -/
def lower_bound [LinearOrder Key] [Inhabited Value] (t : Table Key Value) (key : Key) : Nat :=
  std_lower_bound t._rows (key, default) less_than

/-- Source `upper_bound(key)`. -/
def upper_bound [LinearOrder Key] [Inhabited Value] (t : Table Key Value) (key : Key) : Nat :=
  std_upper_bound t._rows (key, default) less_than

/-- Source `equal_range(key)`: `make_pair(lower_bound(key), upper_bound(key))`. -/
def equal_range [LinearOrder Key] [Inhabited Value] (t : Table Key Value) (key : Key) :
    Nat × Nat :=
  (t.lower_bound key, t.upper_bound key)

/-- Source `insert(key, value)`: the new table and the returned iterator. -/
def insert [LinearOrder Key] (t : Table Key Value) (key : Key) (value : Value) :
    Table Key Value × Nat :=
  let index := std_lower_bound t._rows (key, value) less_than
  (⟨vector_insert t._rows index (key, value)⟩, index)

/-- Source `insertAll(rows)`: append the batch, then `std::sort` the whole vector. -/
def insertAll [LinearOrder Key] [LinearOrder Value] (t : Table Key Value)
    (rows : List (Row_t Key Value)) : Table Key Value :=
  ⟨std_sort (t._rows ++ rows)⟩

/-- Source `remove(key)`; `none` is the failed assertion. -/
def remove [LinearOrder Key] [Inhabited Value] (t : Table Key Value) (key : Key) :
    Option (Table Key Value) :=
  let index := std_lower_bound t._rows (key, default) less_than
  if t.found index key then some ⟨vector_erase t._rows index⟩ else none

/-- Source `erase(index)`.  The source requires a dereferenceable position; at
any other offset the call is undefined there and leaves the rows as they are here. -/
def erase (t : Table Key Value) (index : Nat) : Table Key Value :=
  ⟨vector_erase t._rows index⟩

/-- Source `contains(key)`. -/
def contains [LinearOrder Key] [Inhabited Value] (t : Table Key Value) (key : Key) : Bool :=
  let index := std_lower_bound t._rows (key, default) less_than
  t.found index key

/-- Source `count(key)`: `range.second - range.first`, converted to `size_t`. -/
def count [LinearOrder Key] [Inhabited Value] (t : Table Key Value) (key : Key) : Nat :=
  let range := t.equal_range key
  (((range.2 : Int) - (range.1 : Int)) % (size_t_modulus : Int)).toNat

/-- Source mutable `operator[](key)`: the table after the call and the position
of the row whose `second` the returned reference designates. -/
def operator_index [LinearOrder Key] [Inhabited Value] (t : Table Key Value) (key : Key) :
    Table Key Value × Nat :=
  let index := std_lower_bound t._rows (key, default) less_than
  if t.found index key then (t, index)
  else (⟨vector_insert t._rows index (key, default)⟩, index)

/-- Value read through a reference to the `second` of the row at `index`. -/
def value_at (t : Table Key Value) (index : Nat) : Option Value :=
  (t._rows[index]?).map Prod.snd

/-- Assignment through a reference to the `second` of the row at `index`. -/
def assign_at (t : Table Key Value) (index : Nat) (value : Value) : Table Key Value :=
  ⟨t._rows.modify (fun row => (row.1, value)) index⟩

/-- Source read-only `operator[](key)`; `none` is the failed assertion. -/
def operator_index_const [LinearOrder Key] [Inhabited Value] (t : Table Key Value)
    (key : Key) : Option Value :=
  let index := std_lower_bound t._rows (key, default) less_than
  if t.found index key then t.value_at index else none

/-- Source `clear()`. -/
def clear (_t : Table Key Value) : Table Key Value := ⟨[]⟩

/-- The rows are sorted by key: keys in traversal order are non-decreasing. -/
def SortedByKey [LinearOrder Key] (t : Table Key Value) : Prop :=
  List.Pairwise (fun a b => a.1 ≤ b.1) t._rows

instance [LinearOrder Key] (t : Table Key Value) : Decidable t.SortedByKey :=
  inferInstanceAs (Decidable (List.Pairwise (fun a b : Row_t Key Value => a.1 ≤ b.1) t._rows))

end Table

/-- Tables obtained from the empty table by the mutating operations of the
class: `insert`, `insertAll`, a `remove` whose assertion passes, `erase` at a
dereferenceable position, mutable `operator[]` (alone, or followed by an
assignment through the returned reference) and `clear`. -/
inductive Reachable {Key Value : Type} [LinearOrder Key] [LinearOrder Value]
    [Inhabited Value] : Table Key Value → Prop
  | empty : Reachable ⟨[]⟩
  | insert (t : Table Key Value) (key : Key) (value : Value) :
      Reachable t → Reachable (t.insert key value).1
  | insertAll (t : Table Key Value) (rows : List (Row_t Key Value)) :
      Reachable t → Reachable (t.insertAll rows)
  | remove (t t2 : Table Key Value) (key : Key) :
      Reachable t → t.remove key = some t2 → Reachable t2
  | erase (t : Table Key Value) (index : Nat) :
      Reachable t → index < t.size → Reachable (t.erase index)
  | operator_index (t : Table Key Value) (key : Key) :
      Reachable t → Reachable (t.operator_index key).1
  | operator_index_assign (t : Table Key Value) (key : Key) (value : Value) :
      Reachable t →
      Reachable ((t.operator_index key).1.assign_at (t.operator_index key).2 value)
  | clear (t : Table Key Value) : Reachable t → Reachable t.clear

/-- The table left by `insert(1); insert(2); insert(3); begin()->first = 9;`.
`begin()` returns a mutable `std::vector<Row_t>::iterator`, through which the
key of a stored row can be overwritten, so the rows need not stay sorted. -/
def unsorted : Table Nat Nat := ⟨[(9, 0), (2, 0), (3, 0)]⟩

/-- Scenario B: `insertAll({(5, "e"), (2, "b2")})` on a table holding `(2, "b")`. -/
def scenarioB : Table Nat String := Table.insertAll ⟨[(2, "b")]⟩ [(5, "e"), (2, "b2")]

/-- A sorted table with a run of two equal keys, used to instantiate the theorems. -/
def sample : Table Nat Nat := ⟨[(1, 10), (2, 20), (2, 21), (4, 40)]⟩

/-- The rows of a list inserted one by one with `insert`, in list order. -/
def insert_each {Key Value : Type} [LinearOrder Key] (t : Table Key Value)
    (rows : List (Row_t Key Value)) : Table Key Value :=
  rows.foldl (fun acc row => (acc.insert row.1 row.2).1) t

/-- Tables obtained from `t0` by a finite sequence of `insert`, `insertAll` and
mutable `operator[]` calls (a call alone, or a call with a key other than `K`
followed by an assignment through the returned reference), and of `remove` and
`erase` calls that remove a row whose key is not `K`. -/
inductive KeepsKey {Key Value : Type} [LinearOrder Key] [LinearOrder Value]
    [Inhabited Value] (K : Key) (t0 : Table Key Value) : Table Key Value → Prop
  | start : KeepsKey K t0 t0
  | insert (t : Table Key Value) (key : Key) (value : Value) :
      KeepsKey K t0 t → KeepsKey K t0 (t.insert key value).1
  | insertAll (t : Table Key Value) (rows : List (Row_t Key Value)) :
      KeepsKey K t0 t → KeepsKey K t0 (t.insertAll rows)
  | operator_index (t : Table Key Value) (key : Key) :
      KeepsKey K t0 t → KeepsKey K t0 (t.operator_index key).1
  | operator_index_assign (t : Table Key Value) (key : Key) (value : Value) :
      KeepsKey K t0 t → key ≠ K →
      KeepsKey K t0 ((t.operator_index key).1.assign_at (t.operator_index key).2 value)
  | remove (t t2 : Table Key Value) (key : Key) :
      KeepsKey K t0 t → key ≠ K → t.remove key = some t2 → KeepsKey K t0 t2
  | erase (t : Table Key Value) (index : Nat) (row : Row_t Key Value) :
      KeepsKey K t0 t → t._rows[index]? = some row → row.1 ≠ K →
      KeepsKey K t0 (t.erase index)

/-- The rows are in non-decreasing lexicographic order of (key, then value):
no row is `operator<`-less than an earlier one. -/
def LexSorted {Key Value : Type} [LinearOrder Key] [LinearOrder Value]
    (t : Table Key Value) : Prop :=
  List.Pairwise (fun a b => a.1 < b.1 ∨ (a.1 = b.1 ∧ a.2 ≤ b.2)) t._rows

instance {Key Value : Type} [LinearOrder Key] [LinearOrder Value] (t : Table Key Value) :
    Decidable (LexSorted t) :=
  inferInstanceAs (Decidable (List.Pairwise
    (fun a b : Row_t Key Value => a.1 < b.1 ∨ (a.1 = b.1 ∧ a.2 ≤ b.2)) t._rows))

/-- Two rows with key 1 stored with the larger value first: sorted by key, not
by (key, value). -/
def ties : Table Nat Nat := ⟨[(1, 5), (1, 3), (2, 0)]⟩

/-! ## The test driver `Main.cpp` -/

/-- Source `struct Test_t`: a name and a check returning pass or fail. -/
structure Test_t where
  /-- The member `const char *name`. -/
  name : String
  /-- The member `std::function<bool (void)> run`. -/
  run : Unit → Bool

/-- Source `prepareTests(tests)`: `addTest` pushes "True", then "False". -/
def prepareTests (tests : List Test_t) : List Test_t :=
  (tests ++ [⟨"True", fun _ => true⟩]) ++ [⟨"False", fun _ => false⟩]

/-- What `main` has done so far: the local `passed` and the lines sent to
`std::cout`. -/
structure MainState where
  /-- The local `size_t passed`. -/
  passed : Nat
  /-- The lines written to `std::cout`, oldest first. -/
  out : List String
  deriving DecidableEq

/-- Body of the lambda `main` hands to `std::for_each`: run the check, print its
name with `passed` or `failed`.  The body does not assign `passed`. -/
def main_body (s : MainState) (test : Test_t) : MainState :=
  let result := test.run ()
  { passed := s.passed,
    out := s.out ++ [test.name ++ " : " ++ (if result then "passed" else "failed")] }

/-- Source `main` from the point where `tests` is filled: `passed = 0`, the
`for_each` over the tests, then the summary line. -/
def run_tests (tests : List Test_t) : MainState :=
  let s := tests.foldl main_body ⟨0, []⟩
  { passed := s.passed,
    out := s.out ++ [toString s.passed ++ " of " ++ toString tests.length ++ " passed"] }

/-- Source `main`: `prepareTests` on the empty vector, then the run. -/
def main : MainState :=
  run_tests (prepareTests [])

/-! ## Bisection finds the partition point -/

theorem std_lower_bound_loop_partition {α : Type} (comp : α → α → Bool) (val : α)
    (l1 l2 : List α) (h1 : ∀ x ∈ l1, comp x val = true) (h2 : ∀ x ∈ l2, comp x val = false) :
    ∀ (fuel first len : Nat), len ≤ fuel → first ≤ l1.length → l1.length ≤ first + len →
      first + len ≤ (l1 ++ l2).length →
      std_lower_bound_loop comp (l1 ++ l2) val fuel first len = l1.length := by
  intro fuel
  induction fuel with
  | zero =>
    intro first len hf hlo hhi _
    simp only [std_lower_bound_loop]
    omega
  | succ fuel ih =>
    intro first len hf hlo hhi hlen
    simp only [std_lower_bound_loop]
    by_cases hpos : 0 < len
    · rw [if_pos hpos]
      have hmid : first + len / 2 < (l1 ++ l2).length := by omega
      rw [List.getElem?_eq_getElem hmid]
      simp only
      by_cases hin : first + len / 2 < l1.length
      · have hx : comp ((l1 ++ l2)[first + len / 2]) val = true := by
          rw [List.getElem_append_left hin]
          exact h1 _ (List.getElem_mem _)
        rw [if_pos hx]
        exact ih _ _ (by omega) (by omega) (by omega) (by omega)
      · have hx : comp ((l1 ++ l2)[first + len / 2]) val = false := by
          rw [List.getElem_append_right (by omega)]
          exact h2 _ (List.getElem_mem _)
        rw [hx]
        simp only [Bool.false_eq_true, if_false]
        exact ih _ _ (by omega) (by omega) (by omega) (by omega)
    · rw [if_neg hpos]
      omega

theorem std_upper_bound_loop_partition {α : Type} (comp : α → α → Bool) (val : α)
    (l1 l2 : List α) (h1 : ∀ x ∈ l1, comp val x = false) (h2 : ∀ x ∈ l2, comp val x = true) :
    ∀ (fuel first len : Nat), len ≤ fuel → first ≤ l1.length → l1.length ≤ first + len →
      first + len ≤ (l1 ++ l2).length →
      std_upper_bound_loop comp (l1 ++ l2) val fuel first len = l1.length := by
  intro fuel
  induction fuel with
  | zero =>
    intro first len hf hlo hhi _
    simp only [std_upper_bound_loop]
    omega
  | succ fuel ih =>
    intro first len hf hlo hhi hlen
    simp only [std_upper_bound_loop]
    by_cases hpos : 0 < len
    · rw [if_pos hpos]
      have hmid : first + len / 2 < (l1 ++ l2).length := by omega
      rw [List.getElem?_eq_getElem hmid]
      simp only
      by_cases hin : first + len / 2 < l1.length
      · have hx : comp val ((l1 ++ l2)[first + len / 2]) = false := by
          rw [List.getElem_append_left hin]
          exact h1 _ (List.getElem_mem _)
        rw [hx]
        simp only [Bool.false_eq_true, if_false]
        exact ih _ _ (by omega) (by omega) (by omega) (by omega)
      · have hx : comp val ((l1 ++ l2)[first + len / 2]) = true := by
          rw [List.getElem_append_right (by omega)]
          exact h2 _ (List.getElem_mem _)
        rw [if_pos hx]
        exact ih _ _ (by omega) (by omega) (by omega) (by omega)
    · rw [if_neg hpos]
      omega

/-- On a range split as `l1 ++ l2` with `comp · val` true on `l1` and false on
`l2`, `std::lower_bound` returns the offset of the split. -/
theorem std_lower_bound_append {α : Type} (comp : α → α → Bool) (val : α)
    (l1 l2 : List α) (h1 : ∀ x ∈ l1, comp x val = true) (h2 : ∀ x ∈ l2, comp x val = false) :
    std_lower_bound (l1 ++ l2) val comp = l1.length := by
  unfold std_lower_bound
  exact std_lower_bound_loop_partition comp val l1 l2 h1 h2 _ 0 _ (le_refl _) (Nat.zero_le _)
    (by simp) (by simp)

/-- On a range split as `l1 ++ l2` with `comp val ·` false on `l1` and true on
`l2`, `std::upper_bound` returns the offset of the split. -/
theorem std_upper_bound_append {α : Type} (comp : α → α → Bool) (val : α)
    (l1 l2 : List α) (h1 : ∀ x ∈ l1, comp val x = false) (h2 : ∀ x ∈ l2, comp val x = true) :
    std_upper_bound (l1 ++ l2) val comp = l1.length := by
  unfold std_upper_bound
  exact std_upper_bound_loop_partition comp val l1 l2 h1 h2 _ 0 _ (le_refl _) (Nat.zero_le _)
    (by simp) (by simp)

/-- The iteration bound is never the reason the loop of `std::lower_bound`
stops: one more iteration available changes nothing once `len` are. -/
theorem std_lower_bound_loop_fuel {α : Type} (comp : α → α → Bool) (xs : List α) (val : α) :
    ∀ (fuel first len : Nat), len ≤ fuel →
      std_lower_bound_loop comp xs val (fuel + 1) first len
        = std_lower_bound_loop comp xs val fuel first len := by
  intro fuel
  induction fuel with
  | zero =>
    intro first len hl
    have h0 : len = 0 := by omega
    subst h0
    simp [std_lower_bound_loop]
  | succ fuel ih =>
    intro first len hl
    rw [std_lower_bound_loop]
    conv_rhs => rw [std_lower_bound_loop]
    by_cases hpos : 0 < len
    · simp only [if_pos hpos]
      cases xs[first + len / 2]? with
      | none => rfl
      | some x =>
        simp only
        rw [ih _ _ (by omega), ih _ _ (by omega)]
    · simp only [if_neg hpos]

/-- The iteration bound is never the reason the loop of `std::upper_bound` stops. -/
theorem std_upper_bound_loop_fuel {α : Type} (comp : α → α → Bool) (xs : List α) (val : α) :
    ∀ (fuel first len : Nat), len ≤ fuel →
      std_upper_bound_loop comp xs val (fuel + 1) first len
        = std_upper_bound_loop comp xs val fuel first len := by
  intro fuel
  induction fuel with
  | zero =>
    intro first len hl
    have h0 : len = 0 := by omega
    subst h0
    simp [std_upper_bound_loop]
  | succ fuel ih =>
    intro first len hl
    rw [std_upper_bound_loop]
    conv_rhs => rw [std_upper_bound_loop]
    by_cases hpos : 0 < len
    · simp only [if_pos hpos]
      cases xs[first + len / 2]? with
      | none => rfl
      | some x =>
        simp only
        rw [ih _ _ (by omega), ih _ _ (by omega)]
    · simp only [if_neg hpos]

/-! ## Sorted rows are partitioned by every key -/

/-- A key-sorted list splits, for every predicate that is downward closed in
the key, into the rows satisfying it followed by the rows failing it. -/
theorem sorted_split {Key Value : Type} [LinearOrder Key] (p : Row_t Key Value → Bool)
    (xs : List (Row_t Key Value)) (hs : xs.Pairwise (fun a b => a.1 ≤ b.1))
    (hp : ∀ a b : Row_t Key Value, a.1 ≤ b.1 → p b = true → p a = true) :
    xs = xs.filter p ++ xs.filter (fun r => !p r) := by
  induction xs with
  | nil => simp
  | cons x xs ih =>
    rw [List.pairwise_cons] at hs
    obtain ⟨hx, hxs⟩ := hs
    by_cases hpx : p x = true
    · have h1 : (x :: xs).filter p = x :: xs.filter p := List.filter_cons_of_pos hpx
      have h2 : (x :: xs).filter (fun r => !p r) = xs.filter (fun r => !p r) :=
        List.filter_cons_of_neg (by simp [hpx])
      rw [h1, h2, List.cons_append, ← ih hxs]
    · have hall : ∀ b ∈ xs, ¬ p b = true := fun b hb hpb => hpx (hp x b (hx b hb) hpb)
      have h1 : (x :: xs).filter p = [] := by
        rw [List.filter_eq_nil_iff]
        intro b hb
        rcases List.mem_cons.mp hb with rfl | hb
        · exact hpx
        · exact hall b hb
      have h2 : (x :: xs).filter (fun r => !p r) = x :: xs := by
        rw [List.filter_eq_self]
        intro b hb
        rcases List.mem_cons.mp hb with rfl | hb
        · simpa using hpx
        · simpa using hall b hb
      rw [h1, h2, List.nil_append]

/-- Rows of a key-sorted list with key below `k` come first. -/
theorem sorted_split_lt {Key Value : Type} [LinearOrder Key] (k : Key)
    (xs : List (Row_t Key Value)) (hs : xs.Pairwise (fun a b => a.1 ≤ b.1)) :
    xs = xs.filter (fun r => decide (r.1 < k)) ++ xs.filter (fun r => !decide (r.1 < k)) :=
  sorted_split (fun r => decide (r.1 < k)) xs hs (by
    intro a b hab hb
    simp only [decide_eq_true_eq] at hb ⊢
    exact lt_of_le_of_lt hab hb)

/-- Rows of a key-sorted list with key at most `k` come first. -/
theorem sorted_split_le {Key Value : Type} [LinearOrder Key] (k : Key)
    (xs : List (Row_t Key Value)) (hs : xs.Pairwise (fun a b => a.1 ≤ b.1)) :
    xs = xs.filter (fun r => decide (r.1 ≤ k)) ++ xs.filter (fun r => !decide (r.1 ≤ k)) :=
  sorted_split (fun r => decide (r.1 ≤ k)) xs hs (by
    intro a b hab hb
    simp only [decide_eq_true_eq] at hb ⊢
    exact le_trans hab hb)

/-- On key-sorted rows `std::lower_bound` with `less_than` returns the number of
rows with key below the searched key. -/
theorem std_lower_bound_sorted {Key Value : Type} [LinearOrder Key] (k : Key) (v : Value)
    (xs : List (Row_t Key Value)) (hs : xs.Pairwise (fun a b => a.1 ≤ b.1)) :
    std_lower_bound xs (k, v) Table.less_than
      = (xs.filter (fun r => decide (r.1 < k))).length := by
  have h := std_lower_bound_append Table.less_than (k, v)
    (xs.filter (fun r => decide (r.1 < k))) (xs.filter (fun r => !decide (r.1 < k)))
    (by
      intro x hx
      have := (List.mem_filter.mp hx).2
      simpa [Table.less_than] using this)
    (by
      intro x hx
      have := (List.mem_filter.mp hx).2
      simpa [Table.less_than] using this)
  rw [← sorted_split_lt k xs hs] at h
  exact h

/-- On key-sorted rows `std::upper_bound` with `less_than` returns the number of
rows with key at most the searched key. -/
theorem std_upper_bound_sorted {Key Value : Type} [LinearOrder Key] (k : Key) (v : Value)
    (xs : List (Row_t Key Value)) (hs : xs.Pairwise (fun a b => a.1 ≤ b.1)) :
    std_upper_bound xs (k, v) Table.less_than
      = (xs.filter (fun r => decide (r.1 ≤ k))).length := by
  have h := std_upper_bound_append Table.less_than (k, v)
    (xs.filter (fun r => decide (r.1 ≤ k))) (xs.filter (fun r => !decide (r.1 ≤ k)))
    (by
      intro x hx
      have := (List.mem_filter.mp hx).2
      simpa [Table.less_than] using this)
    (by
      intro x hx
      have := (List.mem_filter.mp hx).2
      simpa [Table.less_than] using this)
  rw [← sorted_split_le k xs hs] at h
  exact h

/-! ## Positions in a split list -/

theorem mem_left_of_getElem?_append {α : Type} (l1 l2 : List α) (i : Nat) (r : α)
    (h : (l1 ++ l2)[i]? = some r) (hi : i < l1.length) : r ∈ l1 := by
  rw [List.getElem?_append_left hi] at h
  exact List.getElem?_mem h

theorem mem_right_of_getElem?_append {α : Type} (l1 l2 : List α) (i : Nat) (r : α)
    (h : (l1 ++ l2)[i]? = some r) (hi : l1.length ≤ i) : r ∈ l2 := by
  rw [List.getElem?_append_right hi] at h
  exact List.getElem?_mem h

/-- Rows with key at most `k` are the rows with key below `k` and the rows with key `k`. -/
theorem length_filter_le_key {Key Value : Type} [LinearOrder Key] (k : Key)
    (xs : List (Row_t Key Value)) :
    (xs.filter (fun r => decide (r.1 ≤ k))).length
      = (xs.filter (fun r => decide (r.1 < k))).length
        + (xs.filter (fun r => decide (r.1 = k))).length := by
  induction xs with
  | nil => simp
  | cons x xs ih =>
    have e1 : ((x :: xs).filter (fun r => decide (r.1 ≤ k))).length
        = (if x.1 ≤ k then 1 else 0) + (xs.filter (fun r => decide (r.1 ≤ k))).length := by
      by_cases h : x.1 ≤ k
      · rw [List.filter_cons_of_pos (by simpa using h), if_pos h, List.length_cons]; omega
      · rw [List.filter_cons_of_neg (by simpa using h), if_neg h]; omega
    have e2 : ((x :: xs).filter (fun r => decide (r.1 < k))).length
        = (if x.1 < k then 1 else 0) + (xs.filter (fun r => decide (r.1 < k))).length := by
      by_cases h : x.1 < k
      · rw [List.filter_cons_of_pos (by simpa using h), if_pos h, List.length_cons]; omega
      · rw [List.filter_cons_of_neg (by simpa using h), if_neg h]; omega
    have e3 : ((x :: xs).filter (fun r => decide (r.1 = k))).length
        = (if x.1 = k then 1 else 0) + (xs.filter (fun r => decide (r.1 = k))).length := by
      by_cases h : x.1 = k
      · rw [List.filter_cons_of_pos (by simpa using h), if_pos h, List.length_cons]; omega
      · rw [List.filter_cons_of_neg (by simpa using h), if_neg h]; omega
    rw [e1, e2, e3, ih]
    rcases lt_trichotomy x.1 k with h | h | h
    · rw [if_pos (le_of_lt h), if_pos h, if_neg (ne_of_lt h)]; omega
    · rw [if_pos (le_of_eq h), if_neg (by rw [h]; exact lt_irrefl k), if_pos h]; omega
    · rw [if_neg (not_le_of_lt h), if_neg (not_lt_of_gt h), if_neg (ne_of_gt h)]; omega

namespace Table

variable {Key Value : Type}

theorem lower_bound_eq [LinearOrder Key] [Inhabited Value] (t : Table Key Value) (k : Key)
    (hs : t.SortedByKey) :
    t.lower_bound k = (t._rows.filter (fun r => decide (r.1 < k))).length :=
  std_lower_bound_sorted k default t._rows hs

theorem upper_bound_eq [LinearOrder Key] [Inhabited Value] (t : Table Key Value) (k : Key)
    (hs : t.SortedByKey) :
    t.upper_bound k = (t._rows.filter (fun r => decide (r.1 ≤ k))).length :=
  std_upper_bound_sorted k default t._rows hs

/-- The test `found` succeeds exactly when a row sits at `index` and has the key. -/
theorem found_iff [LinearOrder Key] (t : Table Key Value) (index : Nat) (k : Key) :
    t.found index k = true ↔ ∃ r, t._rows[index]? = some r ∧ r.1 = k := by
  unfold found
  cases hget : t._rows[index]? with
  | none => simp
  | some r =>
    have hlt : index < t._rows.length := (List.getElem?_eq_some_iff.mp hget).1
    have hne : index ≠ t._rows.length := Nat.ne_of_lt hlt
    simp [hne]

/-- Rows before `std::lower_bound` have a smaller key, rows from it on do not. -/
theorem rows_around_lower [LinearOrder Key] (k : Key) (v : Value)
    (xs : List (Row_t Key Value)) (hs : xs.Pairwise (fun a b => a.1 ≤ b.1)) (i : Nat)
    (r : Row_t Key Value) (h : xs[i]? = some r) :
    (i < std_lower_bound xs (k, v) less_than → r.1 < k) ∧
    (std_lower_bound xs (k, v) less_than ≤ i → k ≤ r.1) := by
  rw [std_lower_bound_sorted k v xs hs]
  have h2 : (xs.filter (fun r => decide (r.1 < k))
      ++ xs.filter (fun r => !decide (r.1 < k)))[i]? = some r := by
    rw [← sorted_split_lt k xs hs]; exact h
  constructor
  · intro hi
    have := (List.mem_filter.mp (mem_left_of_getElem?_append _ _ i r h2 hi)).2
    simpa using this
  · intro hi
    have := (List.mem_filter.mp (mem_right_of_getElem?_append _ _ i r h2 hi)).2
    simpa using this

/-- Rows before `std::upper_bound` have a key at most `k`, rows from it on a larger one. -/
theorem rows_around_upper [LinearOrder Key] (k : Key) (v : Value)
    (xs : List (Row_t Key Value)) (hs : xs.Pairwise (fun a b => a.1 ≤ b.1)) (i : Nat)
    (r : Row_t Key Value) (h : xs[i]? = some r) :
    (i < std_upper_bound xs (k, v) less_than → r.1 ≤ k) ∧
    (std_upper_bound xs (k, v) less_than ≤ i → k < r.1) := by
  rw [std_upper_bound_sorted k v xs hs]
  have h2 : (xs.filter (fun r => decide (r.1 ≤ k))
      ++ xs.filter (fun r => !decide (r.1 ≤ k)))[i]? = some r := by
    rw [← sorted_split_le k xs hs]; exact h
  constructor
  · intro hi
    have := (List.mem_filter.mp (mem_left_of_getElem?_append _ _ i r h2 hi)).2
    simpa using this
  · intro hi
    have := (List.mem_filter.mp (mem_right_of_getElem?_append _ _ i r h2 hi)).2
    simpa using this

/-- When some row has key `k`, the row at `std::lower_bound` exists and has key `k`. -/
theorem row_at_lower_of_mem [LinearOrder Key] (k : Key) (v : Value)
    (xs : List (Row_t Key Value)) (hs : xs.Pairwise (fun a b => a.1 ≤ b.1))
    (r : Row_t Key Value) (hr : r ∈ xs) (hk : r.1 = k) :
    ∃ r0, xs[std_lower_bound xs (k, v) less_than]? = some r0 ∧ r0.1 = k := by
  obtain ⟨j, hj⟩ := List.getElem?_of_mem hr
  have hjlt : j < xs.length := (List.getElem?_eq_some_iff.mp hj).1
  have hle : std_lower_bound xs (k, v) less_than ≤ j := by
    by_contra hcon
    have := (rows_around_lower k v xs hs j r hj).1 (Nat.lt_of_not_le hcon)
    rw [hk] at this
    exact lt_irrefl k this
  have hlt : std_lower_bound xs (k, v) less_than < xs.length := Nat.lt_of_le_of_lt hle hjlt
  refine ⟨xs[std_lower_bound xs (k, v) less_than], List.getElem?_eq_getElem hlt, ?_⟩
  have hge := (rows_around_lower k v xs hs _ _ (List.getElem?_eq_getElem hlt)).2 (le_refl _)
  apply le_antisymm _ hge
  rcases Nat.eq_or_lt_of_le hle with heq | hlt2
  · have hrj : xs[j] = r := (List.getElem?_eq_some_iff.mp hj).2
    have : xs[std_lower_bound xs (k, v) less_than] = r := by
      rw [← hrj]; congr 1
    rw [this, hk]
  · have hp := List.pairwise_iff_getElem.mp hs _ _ hlt hjlt hlt2
    have hrj : xs[j] = r := (List.getElem?_eq_some_iff.mp hj).2
    rw [hrj, hk] at hp
    exact hp

end Table

/-! ## The rows of an equal range -/

theorem take_of_split {α : Type} (l1 l2 xs : List α) (h : xs = l1 ++ l2) :
    xs.take l1.length = l1 := by
  subst h
  exact List.take_left l1 l2

theorem drop_of_split {α : Type} (l1 l2 xs : List α) (h : xs = l1 ++ l2) :
    xs.drop l1.length = l2 := by
  subst h
  exact List.drop_left l1 l2

/-- On key-sorted rows, the rows between `std::lower_bound` and `std::upper_bound`
are the rows with the searched key, in their stored order. -/
theorem rows_between_bounds {Key Value : Type} [LinearOrder Key] (k : Key) (v : Value)
    (xs : List (Row_t Key Value)) (hs : xs.Pairwise (fun a b => a.1 ≤ b.1)) :
    (xs.take (std_upper_bound xs (k, v) Table.less_than)).drop
        (std_lower_bound xs (k, v) Table.less_than)
      = xs.filter (fun r => decide (r.1 = k)) := by
  rw [std_upper_bound_sorted k v xs hs, std_lower_bound_sorted k v xs hs,
    take_of_split _ _ xs (sorted_split_le k xs hs)]
  have hsA : (xs.filter (fun r => decide (r.1 ≤ k))).Pairwise (fun a b => a.1 ≤ b.1) :=
    hs.sublist (List.filter_sublist _)
  have hA := sorted_split_lt k _ hsA
  have e1 : (xs.filter (fun r => decide (r.1 ≤ k))).filter (fun r => decide (r.1 < k))
      = xs.filter (fun r => decide (r.1 < k)) := by
    rw [List.filter_filter]
    apply List.filter_congr
    intro r _
    by_cases h : r.1 < k
    · simp [h, le_of_lt h]
    · simp [h]
  have e2 : (xs.filter (fun r => decide (r.1 ≤ k))).filter (fun r => !decide (r.1 < k))
      = xs.filter (fun r => decide (r.1 = k)) := by
    rw [List.filter_filter]
    apply List.filter_congr
    intro r _
    rcases lt_trichotomy r.1 k with h | h | h
    · simp [h, ne_of_lt h]
    · simp [h]
    · simp [not_lt_of_gt h, not_le_of_lt h, ne_of_gt h]
  rw [e1, e2] at hA
  exact drop_of_split _ _ _ hA

/-! ## Queries on a sorted table -/

namespace Table

variable {Key Value : Type}

theorem lower_le_upper [LinearOrder Key] [Inhabited Value] (t : Table Key Value) (k : Key)
    (hs : t.SortedByKey) :
    t.upper_bound k
      = t.lower_bound k + (t._rows.filter (fun r => decide (r.1 = k))).length := by
  rw [lower_bound_eq t k hs, upper_bound_eq t k hs, length_filter_le_key]

theorem count_eq_mod [LinearOrder Key] [Inhabited Value] (t : Table Key Value) (k : Key)
    (hs : t.SortedByKey) :
    t.count k = (t._rows.filter (fun r => decide (r.1 = k))).length % size_t_modulus := by
  unfold count equal_range
  simp only
  rw [lower_le_upper t k hs]
  have h : ((t.lower_bound k + (t._rows.filter (fun r => decide (r.1 = k))).length : Nat) : Int)
      - (t.lower_bound k : Int)
      = (((t._rows.filter (fun r => decide (r.1 = k))).length : Nat) : Int) := by
    push_cast; ring
  rw [h, ← Int.natCast_mod, Int.toNat_natCast]

/-- Claim C2: on a table whose rows are sorted by key, `contains(k)` returns true
if and only if at least one row of the table has key `k`. -/
theorem contains_iff_exists_row [LinearOrder Key] [Inhabited Value] (t : Table Key Value)
    (k : Key) (hs : t.SortedByKey) :
    t.contains k = true ↔ ∃ r ∈ t._rows, r.1 = k := by
  unfold contains
  simp only
  rw [found_iff]
  constructor
  · rintro ⟨r, hr, hk⟩
    exact ⟨r, List.getElem?_mem hr, hk⟩
  · rintro ⟨r, hr, hk⟩
    exact row_at_lower_of_mem k default t._rows hs r hr hk

/-- Claim C3: on a table sorted by key, `lower_bound(k)` is the first position
whose row key is not less than `k`: it is a position of the table (possibly the
end), every row before it has key `< k`, every row at or after it has key `≥ k`
(so no earlier position holds a key `≥ k`), and it is the end position exactly
when no row has key `≥ k`. -/
theorem lower_bound_first_not_less [LinearOrder Key] [Inhabited Value]
    (t : Table Key Value) (k : Key) (hs : t.SortedByKey) :
    t.lower_bound k ≤ t.size ∧
    (∀ i r, t._rows[i]? = some r → i < t.lower_bound k → r.1 < k) ∧
    (∀ i r, t._rows[i]? = some r → t.lower_bound k ≤ i → k ≤ r.1) ∧
    (∀ i r, t._rows[i]? = some r → k ≤ r.1 → t.lower_bound k ≤ i) ∧
    (t.lower_bound k = t.size ↔ ¬ ∃ r ∈ t._rows, k ≤ r.1) := by
  have hb : t.lower_bound k ≤ t.size := by
    rw [lower_bound_eq t k hs]; exact List.length_filter_le _ _
  refine ⟨hb, ?_, ?_, ?_, ?_⟩
  · intro i r h hi
    exact (rows_around_lower k default t._rows hs i r h).1 hi
  · intro i r h hi
    exact (rows_around_lower k default t._rows hs i r h).2 hi
  · intro i r h hk
    by_contra hcon
    have := (rows_around_lower k default t._rows hs i r h).1 (Nat.lt_of_not_le hcon)
    exact absurd hk (not_le_of_lt this)
  · constructor
    · rintro heq ⟨r, hr, hk⟩
      obtain ⟨j, hj⟩ := List.getElem?_of_mem hr
      have hjlt : j < t._rows.length := (List.getElem?_eq_some_iff.mp hj).1
      have : r.1 < k := (rows_around_lower k default t._rows hs j r hj).1 (by
        show j < t.lower_bound k
        rw [heq]; exact hjlt)
      exact absurd hk (not_le_of_lt this)
    · intro hno
      by_contra hne
      have hlt : t.lower_bound k < t._rows.length := Nat.lt_of_le_of_ne hb hne
      have hge := (rows_around_lower k default t._rows hs _ _
        (List.getElem?_eq_getElem hlt)).2 (le_refl _)
      exact hno ⟨_, List.getElem_mem _, hge⟩

/-- Claim C4: on a table sorted by key, `upper_bound(k)` is the first position
whose row key is greater than `k`: it is a position of the table (possibly the
end), every row before it has key `≤ k`, every row at or after it has key `> k`
(so no earlier position holds a key `> k`), and it is the end position exactly
when no row has key `> k`. -/
theorem upper_bound_first_greater [LinearOrder Key] [Inhabited Value]
    (t : Table Key Value) (k : Key) (hs : t.SortedByKey) :
    t.upper_bound k ≤ t.size ∧
    (∀ i r, t._rows[i]? = some r → i < t.upper_bound k → r.1 ≤ k) ∧
    (∀ i r, t._rows[i]? = some r → t.upper_bound k ≤ i → k < r.1) ∧
    (∀ i r, t._rows[i]? = some r → k < r.1 → t.upper_bound k ≤ i) ∧
    (t.upper_bound k = t.size ↔ ¬ ∃ r ∈ t._rows, k < r.1) := by
  have hb : t.upper_bound k ≤ t.size := by
    rw [upper_bound_eq t k hs]; exact List.length_filter_le _ _
  refine ⟨hb, ?_, ?_, ?_, ?_⟩
  · intro i r h hi
    exact (rows_around_upper k default t._rows hs i r h).1 hi
  · intro i r h hi
    exact (rows_around_upper k default t._rows hs i r h).2 hi
  · intro i r h hk
    by_contra hcon
    have := (rows_around_upper k default t._rows hs i r h).1 (Nat.lt_of_not_le hcon)
    exact absurd hk (not_lt_of_le this)
  · constructor
    · rintro heq ⟨r, hr, hk⟩
      obtain ⟨j, hj⟩ := List.getElem?_of_mem hr
      have hjlt : j < t._rows.length := (List.getElem?_eq_some_iff.mp hj).1
      have : r.1 ≤ k := (rows_around_upper k default t._rows hs j r hj).1 (by
        show j < t.upper_bound k
        rw [heq]; exact hjlt)
      exact absurd hk (not_lt_of_le this)
    · intro hno
      by_contra hne
      have hlt : t.upper_bound k < t._rows.length := Nat.lt_of_le_of_ne hb hne
      have hgt := (rows_around_upper k default t._rows hs _ _
        (List.getElem?_eq_getElem hlt)).2 (le_refl _)
      exact hno ⟨_, List.getElem_mem _, hgt⟩

/-- Claim C5: on a table sorted by key, `equal_range(k)` is the pair
`(lower_bound(k), upper_bound(k))`, a well-formed half-open range of positions
of the table, and a row lies inside the range exactly when its key is `k`
(rows inside have key `k`, rows outside have another key), so the rows of the
range are the rows with key `k` in their stored order; the range is empty when
no row has key `k`. -/
theorem equal_range_spans_key [LinearOrder Key] [Inhabited Value]
    (t : Table Key Value) (k : Key) (hs : t.SortedByKey) :
    t.equal_range k = (t.lower_bound k, t.upper_bound k) ∧
    (t.equal_range k).1 ≤ (t.equal_range k).2 ∧ (t.equal_range k).2 ≤ t.size ∧
    (∀ i r, t._rows[i]? = some r →
      (((t.equal_range k).1 ≤ i ∧ i < (t.equal_range k).2) ↔ r.1 = k)) ∧
    (t._rows.take (t.equal_range k).2).drop (t.equal_range k).1
      = t._rows.filter (fun r => decide (r.1 = k)) ∧
    ((¬ ∃ r ∈ t._rows, r.1 = k) → (t.equal_range k).1 = (t.equal_range k).2) := by
  have hlu := lower_le_upper t k hs
  refine ⟨rfl, ?_, ?_, ?_, rows_between_bounds k default t._rows hs, ?_⟩
  · show t.lower_bound k ≤ t.upper_bound k
    omega
  · show t.upper_bound k ≤ t.size
    rw [upper_bound_eq t k hs]; exact List.length_filter_le _ _
  · intro i r h
    show (t.lower_bound k ≤ i ∧ i < t.upper_bound k) ↔ r.1 = k
    have hl := rows_around_lower k default t._rows hs i r h
    have hu := rows_around_upper k default t._rows hs i r h
    constructor
    · rintro ⟨h1, h2⟩
      exact le_antisymm (hu.1 h2) (hl.2 h1)
    · intro hk
      constructor
      · by_contra hcon
        have := hl.1 (Nat.lt_of_not_le hcon)
        rw [hk] at this
        exact lt_irrefl k this
      · by_contra hcon
        have := hu.2 (Nat.le_of_not_lt hcon)
        rw [hk] at this
        exact lt_irrefl k this
  · intro hno
    show t.lower_bound k = t.upper_bound k
    have h0 : t._rows.filter (fun r => decide (r.1 = k)) = [] := by
      rw [List.filter_eq_nil_iff]
      intro r hr hk
      exact hno ⟨r, hr, by simpa using hk⟩
    rw [hlu, h0]
    rfl

/-- Claim C6: on a table sorted by key, the subtraction in `count(k)` does not
underflow (`lower_bound(k) ≤ upper_bound(k)`), the number of positions in
`equal_range(k)` is the number of rows with key `k`, and `count(k)` is that
number as a `size_t`: exactly that number for every table whose `size()` fits
`size_t` (as that of every `std::vector` does), and 0 for an absent key. -/
theorem count_eq_rows_with_key [LinearOrder Key] [Inhabited Value]
    (t : Table Key Value) (k : Key) (hs : t.SortedByKey) :
    t.lower_bound k ≤ t.upper_bound k ∧
    (t.equal_range k).2 - (t.equal_range k).1
      = (t._rows.filter (fun r => decide (r.1 = k))).length ∧
    t.count k = (t._rows.filter (fun r => decide (r.1 = k))).length % size_t_modulus ∧
    (t.size < size_t_modulus →
      t.count k = (t._rows.filter (fun r => decide (r.1 = k))).length ∧
      t.count k = (t.equal_range k).2 - (t.equal_range k).1) ∧
    ((¬ ∃ r ∈ t._rows, r.1 = k) → t.count k = 0) := by
  have hlu := lower_le_upper t k hs
  have hc := count_eq_mod t k hs
  have hrange : (t.equal_range k).2 - (t.equal_range k).1
      = (t._rows.filter (fun r => decide (r.1 = k))).length := by
    show t.upper_bound k - t.lower_bound k = _
    omega
  refine ⟨by omega, hrange, hc, ?_, ?_⟩
  · intro hfit
    have hle : (t._rows.filter (fun r => decide (r.1 = k))).length ≤ t.size :=
      List.length_filter_le _ _
    have hex : t.count k = (t._rows.filter (fun r => decide (r.1 = k))).length := by
      rw [hc]; exact Nat.mod_eq_of_lt (Nat.lt_of_le_of_lt hle hfit)
    exact ⟨hex, by rw [hex, hrange]⟩
  · intro hno
    have h0 : t._rows.filter (fun r => decide (r.1 = k)) = [] := by
      rw [List.filter_eq_nil_iff]
      intro r hr hk
      exact hno ⟨r, hr, by simpa using hk⟩
    rw [hc, h0]
    rfl

end Table

/-- Instance of C2 at `sample` and key 2. -/
theorem contains_iff_exists_row_witness :
    sample.SortedByKey ∧ (sample.contains 2 = true ↔ ∃ r ∈ sample._rows, r.1 = 2) :=
  ⟨by decide, Table.contains_iff_exists_row sample 2 (by decide)⟩

/-- Instance of C3 at `sample` and key 2. -/
theorem lower_bound_first_not_less_witness :
    sample.SortedByKey ∧
    (sample.lower_bound 2 ≤ sample.size ∧
    (∀ i r, sample._rows[i]? = some r → i < sample.lower_bound 2 → r.1 < 2) ∧
    (∀ i r, sample._rows[i]? = some r → sample.lower_bound 2 ≤ i → 2 ≤ r.1) ∧
    (∀ i r, sample._rows[i]? = some r → 2 ≤ r.1 → sample.lower_bound 2 ≤ i) ∧
    (sample.lower_bound 2 = sample.size ↔ ¬ ∃ r ∈ sample._rows, 2 ≤ r.1)) :=
  ⟨by decide, Table.lower_bound_first_not_less sample 2 (by decide)⟩

/-- Instance of C4 at `sample` and key 2. -/
theorem upper_bound_first_greater_witness :
    sample.SortedByKey ∧
    (sample.upper_bound 2 ≤ sample.size ∧
    (∀ i r, sample._rows[i]? = some r → i < sample.upper_bound 2 → r.1 ≤ 2) ∧
    (∀ i r, sample._rows[i]? = some r → sample.upper_bound 2 ≤ i → 2 < r.1) ∧
    (∀ i r, sample._rows[i]? = some r → 2 < r.1 → sample.upper_bound 2 ≤ i) ∧
    (sample.upper_bound 2 = sample.size ↔ ¬ ∃ r ∈ sample._rows, 2 < r.1)) :=
  ⟨by decide, Table.upper_bound_first_greater sample 2 (by decide)⟩

/-- Instance of C5 at `sample` and key 2. -/
theorem equal_range_spans_key_witness :
    sample.SortedByKey ∧
    (sample.equal_range 2 = (sample.lower_bound 2, sample.upper_bound 2) ∧
    (sample.equal_range 2).1 ≤ (sample.equal_range 2).2 ∧
    (sample.equal_range 2).2 ≤ sample.size ∧
    (∀ i r, sample._rows[i]? = some r →
      (((sample.equal_range 2).1 ≤ i ∧ i < (sample.equal_range 2).2) ↔ r.1 = 2)) ∧
    (sample._rows.take (sample.equal_range 2).2).drop (sample.equal_range 2).1
      = sample._rows.filter (fun r => decide (r.1 = 2)) ∧
    ((¬ ∃ r ∈ sample._rows, r.1 = 2) → (sample.equal_range 2).1 = (sample.equal_range 2).2)) :=
  ⟨by decide, Table.equal_range_spans_key sample 2 (by decide)⟩

/-- Instance of C6 at `sample` and key 2. -/
theorem count_eq_rows_with_key_witness :
    sample.SortedByKey ∧
    (sample.lower_bound 2 ≤ sample.upper_bound 2 ∧
    (sample.equal_range 2).2 - (sample.equal_range 2).1
      = (sample._rows.filter (fun r => decide (r.1 = 2))).length ∧
    sample.count 2 = (sample._rows.filter (fun r => decide (r.1 = 2))).length % size_t_modulus ∧
    (sample.size < size_t_modulus →
      sample.count 2 = (sample._rows.filter (fun r => decide (r.1 = 2))).length ∧
      sample.count 2 = (sample.equal_range 2).2 - (sample.equal_range 2).1) ∧
    ((¬ ∃ r ∈ sample._rows, r.1 = 2) → sample.count 2 = 0)) :=
  ⟨by decide, Table.count_eq_rows_with_key sample 2 (by decide)⟩


/-! ## Every mutating operation keeps the rows sorted -/

theorem vector_insert_split {α : Type} (l1 l2 xs : List α) (x : α) (h : xs = l1 ++ l2) :
    vector_insert xs l1.length x = l1 ++ x :: l2 := by
  subst h
  unfold vector_insert
  rw [List.take_left, List.drop_left]

theorem vector_erase_eq_eraseIdx {α : Type} (xs : List α) (i : Nat) :
    vector_erase xs i = xs.eraseIdx i := by
  unfold vector_erase
  rw [List.eraseIdx_eq_take_drop_succ]

theorem vector_insert_sorted {Key Value : Type} [LinearOrder Key] (k : Key) (v w : Value)
    (xs : List (Row_t Key Value)) (hs : xs.Pairwise (fun a b => a.1 ≤ b.1)) :
    (vector_insert xs (std_lower_bound xs (k, w) Table.less_than) (k, v)).Pairwise
      (fun a b => a.1 ≤ b.1) := by
  have hsplit := sorted_split_lt k xs hs
  rw [std_lower_bound_sorted k w xs hs, vector_insert_split _ _ xs (k, v) hsplit]
  have hs1 : (xs.filter (fun r => decide (r.1 < k))).Pairwise (fun a b => a.1 ≤ b.1) :=
    hs.sublist (List.filter_sublist _)
  have hs2 : (xs.filter (fun r => !decide (r.1 < k))).Pairwise (fun a b => a.1 ≤ b.1) :=
    hs.sublist (List.filter_sublist _)
  have hlt : ∀ a ∈ xs.filter (fun r => decide (r.1 < k)), a.1 < k := by
    intro a ha
    simpa using (List.mem_filter.mp ha).2
  have hge : ∀ b ∈ xs.filter (fun r => !decide (r.1 < k)), k ≤ b.1 := by
    intro b hb
    simpa using (List.mem_filter.mp hb).2
  rw [List.pairwise_append]
  refine ⟨hs1, ?_, ?_⟩
  · rw [List.pairwise_cons]
    exact ⟨fun b hb => hge b hb, hs2⟩
  · intro a ha b hb
    rcases List.mem_cons.mp hb with rfl | hb
    · exact le_of_lt (hlt a ha)
    · exact le_trans (le_of_lt (hlt a ha)) (hge b hb)

theorem vector_erase_sorted {Key Value : Type} [LinearOrder Key]
    (xs : List (Row_t Key Value)) (i : Nat) (hs : xs.Pairwise (fun a b => a.1 ≤ b.1)) :
    (vector_erase xs i).Pairwise (fun a b => a.1 ≤ b.1) := by
  rw [vector_erase_eq_eraseIdx]
  exact hs.sublist (List.eraseIdx_sublist xs i)

/-- The order `operator<` of `std::pair` induces: `b` is not less than `a`. -/
theorem pair_less_eq_false_iff {Key Value : Type} [LinearOrder Key] [LinearOrder Value]
    (a b : Key × Value) :
    pair_less b a = false ↔ a.1 < b.1 ∨ (a.1 = b.1 ∧ a.2 ≤ b.2) := by
  unfold pair_less
  rcases lt_trichotomy a.1 b.1 with h | h | h
  · simp [h, not_lt_of_gt h]
  · simp [h]
  · simp [h, not_lt_of_gt h, ne_of_gt h]

theorem pair_less_total {Key Value : Type} [LinearOrder Key] [LinearOrder Value]
    (a b : Key × Value) : pair_less b a = false ∨ pair_less a b = false := by
  simp only [pair_less_eq_false_iff]
  rcases lt_trichotomy a.1 b.1 with h | h | h
  · exact Or.inl (Or.inl h)
  · rcases le_total a.2 b.2 with h2 | h2
    · exact Or.inl (Or.inr ⟨h, h2⟩)
    · exact Or.inr (Or.inr ⟨h.symm, h2⟩)
  · exact Or.inr (Or.inl h)

theorem pair_less_trans {Key Value : Type} [LinearOrder Key] [LinearOrder Value]
    (a b c : Key × Value) (hab : pair_less b a = false) (hbc : pair_less c b = false) :
    pair_less c a = false := by
  simp only [pair_less_eq_false_iff] at hab hbc ⊢
  rcases hab with h1 | ⟨h1, h1v⟩
  · rcases hbc with h2 | ⟨h2, _⟩
    · exact Or.inl (lt_trans h1 h2)
    · exact Or.inl (h2 ▸ h1)
  · rcases hbc with h2 | ⟨h2, h2v⟩
    · exact Or.inl (h1 ▸ h2)
    · exact Or.inr ⟨h1.trans h2, le_trans h1v h2v⟩

theorem std_sort_perm {Key Value : Type} [LinearOrder Key] [LinearOrder Value]
    (xs : List (Key × Value)) : List.Perm (std_sort xs) xs :=
  List.perm_insertionSort _ xs

theorem std_sort_pairwise {Key Value : Type} [LinearOrder Key] [LinearOrder Value]
    (xs : List (Key × Value)) :
    (std_sort xs).Pairwise (fun a b => pair_less b a = false) := by
  haveI : IsTotal (Key × Value) (fun a b => pair_less b a = false) := ⟨pair_less_total⟩
  haveI : IsTrans (Key × Value) (fun a b => pair_less b a = false) := ⟨pair_less_trans⟩
  exact List.sorted_insertionSort _ xs

theorem std_sort_sorted_by_key {Key Value : Type} [LinearOrder Key] [LinearOrder Value]
    (xs : List (Key × Value)) : (std_sort xs).Pairwise (fun a b => a.1 ≤ b.1) := by
  refine (std_sort_pairwise xs).imp ?_
  intro a b hab
  rcases (pair_less_eq_false_iff a b).mp hab with h | ⟨h, _⟩
  · exact le_of_lt h
  · exact le_of_eq h

theorem modify_value_keys {Key Value : Type} (v : Value) (xs : List (Row_t Key Value)) :
    ∀ i : Nat, (xs.modify (fun row => (row.1, v)) i).map Prod.fst = xs.map Prod.fst := by
  induction xs with
  | nil => intro i; simp
  | cons x xs ih =>
    intro i
    cases i with
    | zero => simp
    | succ i => simp [ih i]

namespace Table

variable {Key Value : Type}

theorem insert_sorted [LinearOrder Key] (t : Table Key Value) (k : Key) (v : Value)
    (hs : t.SortedByKey) : (t.insert k v).1.SortedByKey :=
  vector_insert_sorted k v v t._rows hs

theorem insertAll_sorted [LinearOrder Key] [LinearOrder Value] (t : Table Key Value)
    (rows : List (Row_t Key Value)) : (t.insertAll rows).SortedByKey :=
  std_sort_sorted_by_key _

theorem erase_sorted [LinearOrder Key] (t : Table Key Value) (i : Nat)
    (hs : t.SortedByKey) : (t.erase i).SortedByKey :=
  vector_erase_sorted t._rows i hs

theorem remove_sorted [LinearOrder Key] [Inhabited Value] (t t2 : Table Key Value) (k : Key)
    (hs : t.SortedByKey) (hr : t.remove k = some t2) : t2.SortedByKey := by
  unfold remove at hr
  simp only at hr
  split at hr
  · cases hr
    exact vector_erase_sorted t._rows _ hs
  · cases hr

theorem operator_index_sorted [LinearOrder Key] [Inhabited Value] (t : Table Key Value)
    (k : Key) (hs : t.SortedByKey) : (t.operator_index k).1.SortedByKey := by
  unfold operator_index
  simp only
  split
  · exact hs
  · exact vector_insert_sorted k default default t._rows hs

theorem assign_at_sorted [LinearOrder Key] (t : Table Key Value) (i : Nat) (v : Value)
    (hs : t.SortedByKey) : (t.assign_at i v).SortedByKey := by
  unfold SortedByKey at hs ⊢
  have h1 : (t._rows.map Prod.fst).Pairwise (fun a b => a ≤ b) := List.pairwise_map.mpr hs
  have h2 : ((t.assign_at i v)._rows.map Prod.fst).Pairwise (fun a b => a ≤ b) := by
    unfold assign_at
    rw [modify_value_keys]
    exact h1
  exact List.pairwise_map.mp h2

end Table

/-- Claim C1 (sorted invariant): every table reachable from the empty table by a
finite sequence of `insert`, `insertAll`, `remove`, `erase`, mutable `operator[]`
(also when a value is assigned through its result) and `clear` has its keys in
non-decreasing order along the traversal. -/
theorem reachable_sorted {Key Value : Type} [LinearOrder Key] [LinearOrder Value]
    [Inhabited Value] (t : Table Key Value) (h : Reachable t) :
    List.Pairwise (fun a b => a ≤ b) (t.traversal.map Prod.fst) := by
  have hs : t.SortedByKey := by
    induction h with
    | empty => exact List.Pairwise.nil
    | insert t k v _ ih => exact Table.insert_sorted t k v ih
    | insertAll t rows _ _ => exact Table.insertAll_sorted t rows
    | remove t t2 k _ hr ih => exact Table.remove_sorted t t2 k ih hr
    | erase t i _ _ ih => exact Table.erase_sorted t i ih
    | operator_index t k _ ih => exact Table.operator_index_sorted t k ih
    | operator_index_assign t k v _ ih =>
      exact Table.assign_at_sorted _ _ v (Table.operator_index_sorted t k ih)
    | clear t _ _ => exact List.Pairwise.nil
  exact List.pairwise_map.mpr hs

/-- Instance of C1: the table reached by `insert(3, 30)`, `insert(1, 10)`,
`insertAll({(2, 20), (1, 5)})`, `table[4] = 44`, `remove(1)` and `erase(begin() + 2)`. -/
theorem reachable_sorted_witness :
    Reachable (⟨[(1, 10), (2, 20), (4, 44)]⟩ : Table Nat Nat) ∧
    List.Pairwise (fun a b => a ≤ b)
      ((⟨[(1, 10), (2, 20), (4, 44)]⟩ : Table Nat Nat).traversal.map Prod.fst) :=
  have h1 : Reachable (⟨[(3, 30)]⟩ : Table Nat Nat) :=
    Reachable.insert ⟨[]⟩ 3 30 Reachable.empty
  have h2 : Reachable (⟨[(1, 10), (3, 30)]⟩ : Table Nat Nat) :=
    Reachable.insert ⟨[(3, 30)]⟩ 1 10 h1
  have h3 : Reachable (⟨[(1, 5), (1, 10), (2, 20), (3, 30)]⟩ : Table Nat Nat) :=
    Reachable.insertAll ⟨[(1, 10), (3, 30)]⟩ [(2, 20), (1, 5)] h2
  have h4 : Reachable (⟨[(1, 5), (1, 10), (2, 20), (3, 30), (4, 44)]⟩ : Table Nat Nat) :=
    Reachable.operator_index_assign ⟨[(1, 5), (1, 10), (2, 20), (3, 30)]⟩ 4 44 h3
  have h5 : Reachable (⟨[(1, 10), (2, 20), (3, 30), (4, 44)]⟩ : Table Nat Nat) :=
    Reachable.remove ⟨[(1, 5), (1, 10), (2, 20), (3, 30), (4, 44)]⟩ _ 1 h4 (by decide)
  have h6 : Reachable (⟨[(1, 10), (2, 20), (4, 44)]⟩ : Table Nat Nat) :=
    Reachable.erase ⟨[(1, 10), (2, 20), (3, 30), (4, 44)]⟩ 2 h5 (by decide)
  ⟨h6, reachable_sorted _ h6⟩

/-! ## Sizes -/

theorem length_vector_insert {α : Type} (xs : List α) (i : Nat) (x : α) :
    (vector_insert xs i x).length = xs.length + 1 := by
  unfold vector_insert
  rw [List.length_append, List.length_cons, List.length_take, List.length_drop]
  omega

theorem length_vector_erase {α : Type} (xs : List α) (i : Nat) (h : i < xs.length) :
    (vector_erase xs i).length + 1 = xs.length := by
  unfold vector_erase
  rw [List.length_append, List.length_take, List.length_drop]
  omega

theorem getElem?_vector_insert {α : Type} (xs : List α) (i : Nat) (x : α)
    (h : i ≤ xs.length) : (vector_insert xs i x)[i]? = some x := by
  unfold vector_insert
  have hl : (xs.take i).length = i := by rw [List.length_take]; omega
  rw [List.getElem?_append_right (by omega), hl, Nat.sub_self]
  exact List.getElem?_cons_zero

theorem vector_erase_insert {α : Type} (xs : List α) (i : Nat) (x : α)
    (h : i ≤ xs.length) : vector_erase (vector_insert xs i x) i = xs := by
  unfold vector_erase vector_insert
  have hl : (xs.take i).length = i := by rw [List.length_take]; omega
  have h1 : (xs.take i ++ x :: xs.drop i).take i = xs.take i := List.take_left' hl
  have h2 : (xs.take i ++ x :: xs.drop i).drop (i + 1) = xs.drop i := by
    have : xs.take i ++ x :: xs.drop i = (xs.take i ++ [x]) ++ xs.drop i := by simp
    rw [this]
    exact List.drop_left' (by rw [List.length_append, hl]; rfl)
  rw [h1, h2, List.take_append_drop]

namespace Table

variable {Key Value : Type}

theorem found_lt_size [LinearOrder Key] (t : Table Key Value) (index : Nat) (k : Key)
    (h : t.found index k = true) : index < t.size := by
  obtain ⟨r, hr, _⟩ := (found_iff t index k).mp h
  exact (List.getElem?_eq_some_iff.mp hr).1

theorem remove_eq_some [LinearOrder Key] [Inhabited Value] (t : Table Key Value) (k : Key)
    (hs : t.SortedByKey) (hk : ∃ r ∈ t._rows, r.1 = k) :
    t.remove k = some ⟨vector_erase t._rows (t.lower_bound k)⟩ := by
  obtain ⟨r, hr, hrk⟩ := hk
  have hf : t.found (std_lower_bound t._rows (k, default) less_than) k = true :=
    (found_iff t _ k).mpr (row_at_lower_of_mem k default t._rows hs r hr hrk)
  unfold remove
  simp only
  rw [if_pos hf]
  rfl

theorem size_remove [LinearOrder Key] [Inhabited Value] (t t2 : Table Key Value) (k : Key)
    (h : t.remove k = some t2) : t2.size + 1 = t.size := by
  unfold remove at h
  simp only at h
  split at h
  · rename_i hf
    cases h
    exact length_vector_erase t._rows _ (found_lt_size t _ k hf)
  · cases h

theorem size_insertAll [LinearOrder Key] [LinearOrder Value] (t : Table Key Value)
    (rows : List (Row_t Key Value)) : (t.insertAll rows).size = t.size + rows.length := by
  unfold insertAll size
  rw [(std_sort_perm _).length_eq, List.length_append]

end Table

/-- Claim C7, as the code has it.  `size()` is the number of rows of a full
traversal; on every table `insert` raises the size by exactly 1, `insertAll` of
a batch by the length of the batch, every `remove` that passes its assertion
and every `erase` at a dereferenceable position lower it by exactly 1, and
`clear` leaves size 0; on a table sorted by key, `remove` of a key that some row
has passes its assertion (and so lowers the size by exactly 1). -/
theorem size_consistency {Key Value : Type} [LinearOrder Key] [LinearOrder Value]
    [Inhabited Value] (t : Table Key Value) :
    t.size = t.traversal.length ∧
    (∀ k v, (t.insert k v).1.size = t.size + 1) ∧
    (∀ rows, (t.insertAll rows).size = t.size + rows.length) ∧
    (∀ k t2, t.remove k = some t2 → t2.size + 1 = t.size) ∧
    (t.SortedByKey → ∀ k, (∃ r ∈ t._rows, r.1 = k) →
      ∃ t2, t.remove k = some t2 ∧ t2.size + 1 = t.size) ∧
    (∀ i, i < t.size → (t.erase i).size + 1 = t.size) ∧
    t.clear.size = 0 := by
  refine ⟨rfl, ?_, ?_, ?_, ?_, ?_, rfl⟩
  · intro k v
    exact length_vector_insert t._rows _ (k, v)
  · intro rows
    exact Table.size_insertAll t rows
  · intro k t2 h
    exact Table.size_remove t t2 k h
  · intro hs k hk
    have h := Table.remove_eq_some t k hs hk
    exact ⟨_, h, Table.size_remove t _ k h⟩
  · intro i hi
    exact length_vector_erase t._rows i hi

/-- Instance of C7 at `sample`: removing the present key 2 from the sorted table. -/
theorem size_consistency_witness :
    sample.SortedByKey ∧ (∃ r ∈ sample._rows, r.1 = 2) ∧
    ∃ t2, sample.remove 2 = some t2 ∧ t2.size + 1 = sample.size :=
  ⟨by decide, by decide, (size_consistency sample).2.2.2.2.1 (by decide) 2 (by decide)⟩

/-- Counterexample to C7 as stated (for every table): key 9 is the key of a row
of `unsorted`, yet `remove(9)` fails its assertion, the bisection having stopped
at `end()`; the call removes nothing. -/
theorem remove_present_key_unsorted :
    (∃ r ∈ unsorted._rows, r.1 = 9) ∧ unsorted.lower_bound 9 = unsorted.size ∧
    unsorted.remove 9 = none := by
  decide

/-! ## `insert` -/

namespace Table

variable {Key Value : Type}

/-- Claim C8: on a table sorted by key, `insert(k, v)` returns the old
`lower_bound(k)`; the row at that position of the new table is `(k, v)`; the new
rows are the old rows before that position, the new row, and the old rows from
that position on, so that deleting the returned position from the new table
gives back the old table. -/
theorem insert_at_lower_bound [LinearOrder Key] [Inhabited Value] (t : Table Key Value)
    (k : Key) (v : Value) (hs : t.SortedByKey) :
    (t.insert k v).2 = t.lower_bound k ∧
    (t.insert k v).2 ≤ t.size ∧
    (t.insert k v).1._rows[(t.insert k v).2]? = some (k, v) ∧
    (t.insert k v).1._rows
      = t._rows.take (t.insert k v).2 ++ (k, v) :: t._rows.drop (t.insert k v).2 ∧
    (t.insert k v).1.erase (t.insert k v).2 = t := by
  have hp : (t.insert k v).2 = t.lower_bound k := by
    show std_lower_bound t._rows (k, v) less_than = t.lower_bound k
    rw [std_lower_bound_sorted k v t._rows hs, lower_bound_eq t k hs]
  have hle : (t.insert k v).2 ≤ t.size := by
    rw [hp, lower_bound_eq t k hs]
    exact List.length_filter_le _ _
  refine ⟨hp, hle, ?_, rfl, ?_⟩
  · exact getElem?_vector_insert t._rows _ (k, v) hle
  · show (⟨vector_erase (vector_insert t._rows (t.insert k v).2 (k, v)) (t.insert k v).2⟩ :
      Table Key Value) = t
    rw [vector_erase_insert t._rows _ (k, v) hle]

end Table

/-- Instance of C8 at `sample`: `insert(2, 7)` lands at position 1, before the
two rows that already have key 2. -/
theorem insert_at_lower_bound_witness :
    sample.SortedByKey ∧
    ((sample.insert 2 7).2 = sample.lower_bound 2 ∧
    (sample.insert 2 7).2 ≤ sample.size ∧
    (sample.insert 2 7).1._rows[(sample.insert 2 7).2]? = some (2, 7) ∧
    (sample.insert 2 7).1._rows
      = sample._rows.take (sample.insert 2 7).2 ++ (2, 7) :: sample._rows.drop (sample.insert 2 7).2 ∧
    (sample.insert 2 7).1.erase (sample.insert 2 7).2 = sample) :=
  ⟨by decide, Table.insert_at_lower_bound sample 2 7 (by decide)⟩


/-! ## `insertAll` -/

namespace Table

variable {Key Value : Type}

theorem insertAll_perm [LinearOrder Key] [LinearOrder Value] (t : Table Key Value)
    (batch : List (Row_t Key Value)) :
    List.Perm (t.insertAll batch)._rows (t._rows ++ batch) :=
  std_sort_perm _

theorem insertAll_filter_length [LinearOrder Key] [LinearOrder Value] (t : Table Key Value)
    (batch : List (Row_t Key Value)) (p : Row_t Key Value → Bool) :
    ((t.insertAll batch)._rows.filter p).length
      = (t._rows.filter p).length + (batch.filter p).length := by
  rw [((insertAll_perm t batch).filter p).length_eq, List.filter_append, List.length_append]

theorem insertAll_count [LinearOrder Key] [LinearOrder Value] [Inhabited Value]
    (t : Table Key Value) (batch : List (Row_t Key Value)) (hs : t.SortedByKey) (K : Key) :
    (t.insertAll batch).count K
        = (t.count K + (batch.filter (fun r => decide (r.1 = K))).length) % size_t_modulus ∧
    ((t.insertAll batch).size < size_t_modulus →
      (t.insertAll batch).count K
        = t.count K + (batch.filter (fun r => decide (r.1 = K))).length) := by
  have hnew := count_eq_mod (t.insertAll batch) K (insertAll_sorted t batch)
  have hold := count_eq_mod t K hs
  rw [insertAll_filter_length] at hnew
  constructor
  · rw [hnew, hold, Nat.mod_add_mod]
  · intro hfit
    rw [size_insertAll] at hfit
    have h1 : (t._rows.filter (fun r => decide (r.1 = K))).length ≤ t.size :=
      List.length_filter_le _ _
    have h2 : (batch.filter (fun r => decide (r.1 = K))).length ≤ batch.length :=
      List.length_filter_le _ _
    rw [hnew, hold, Nat.mod_eq_of_lt (by omega), Nat.mod_eq_of_lt (by omega)]

end Table

theorem scenarioB_size : scenarioB.size = 3 := by
  unfold scenarioB
  rw [Table.size_insertAll]
  rfl

theorem scenarioB_count : scenarioB.count 2 = 2 := by
  unfold scenarioB
  have hs : (⟨[(2, "b")]⟩ : Table Nat String).SortedByKey := by decide
  have h := (Table.insertAll_count ⟨[(2, "b")]⟩ [(5, "e"), (2, "b2")] hs 2).2 (by
    rw [Table.size_insertAll]; decide)
  rw [h]
  decide

theorem scenarioB_range :
    List.Perm ((scenarioB._rows.take (scenarioB.equal_range 2).2).drop
      (scenarioB.equal_range 2).1) [(2, "b"), (2, "b2")] := by
  have hs : scenarioB.SortedByKey := Table.insertAll_sorted _ _
  have h := rows_between_bounds 2 (default : String) scenarioB._rows hs
  show List.Perm ((scenarioB._rows.take (scenarioB.upper_bound 2)).drop
    (scenarioB.lower_bound 2)) [(2, "b"), (2, "b2")]
  unfold Table.upper_bound Table.lower_bound
  rw [h]
  exact (Table.insertAll_perm ⟨[(2, "b")]⟩ [(5, "e"), (2, "b2")]).filter _

/-- Claim C9, as the code has it.  For every table and every batch, after
`insertAll(batch)` the stored rows are, as a multiset, the old rows together
with the batch rows, the size has grown by the length of the batch and the rows
are sorted by key; for every table that was sorted by key before the call and
every key `K`, the new `count(K)` is the old `count(K)` plus the number of batch
rows with key `K` (in `size_t` arithmetic, and exactly when the new size fits
`size_t`).  Scenario B: the size is 3, `count(2)` is 2 and the rows of
`equal_range(2)` are `(2, "b")` and `(2, "b2")` in some order. -/
theorem insertAll_multiset_sorted_count :
    (∀ {Key Value : Type} [LinearOrder Key] [LinearOrder Value] [Inhabited Value]
      (t : Table Key Value) (batch : List (Row_t Key Value)),
      List.Perm (t.insertAll batch)._rows (t._rows ++ batch) ∧
      ((t.insertAll batch)._rows : Multiset (Row_t Key Value))
        = (t._rows : Multiset (Row_t Key Value)) + (batch : Multiset (Row_t Key Value)) ∧
      (t.insertAll batch).size = t.size + batch.length ∧
      (t.insertAll batch).SortedByKey ∧
      (t.SortedByKey → ∀ K : Key,
        (t.insertAll batch).count K
            = (t.count K + (batch.filter (fun r => decide (r.1 = K))).length)
              % size_t_modulus ∧
        ((t.insertAll batch).size < size_t_modulus →
          (t.insertAll batch).count K
            = t.count K + (batch.filter (fun r => decide (r.1 = K))).length))) ∧
    (scenarioB.size = 3 ∧ scenarioB.count 2 = 2 ∧
      List.Perm ((scenarioB._rows.take (scenarioB.equal_range 2).2).drop
        (scenarioB.equal_range 2).1) [(2, "b"), (2, "b2")]) := by
  refine ⟨?_, scenarioB_size, scenarioB_count, scenarioB_range⟩
  intro Key Value _ _ _ t batch
  refine ⟨Table.insertAll_perm t batch, ?_, Table.size_insertAll t batch,
    Table.insertAll_sorted t batch, fun hs K => Table.insertAll_count t batch hs K⟩
  rw [Multiset.coe_add]
  exact Multiset.coe_eq_coe.mpr (Table.insertAll_perm t batch)

/-- Instance of C9 at `sample` with the batch `{(2, 5), (0, 1)}` and key 2. -/
theorem insertAll_multiset_sorted_count_witness :
    sample.SortedByKey ∧
    (sample.insertAll [(2, 5), (0, 1)]).count 2
      = (sample.count 2 + ([((2 : Nat), (5 : Nat)), (0, 1)].filter
          (fun r => decide (r.1 = 2))).length) % size_t_modulus :=
  ⟨by decide,
    ((insertAll_multiset_sorted_count.1 sample [(2, 5), (0, 1)]).2.2.2.2 (by decide) 2).1⟩

/-- Counterexample to C9 as stated (for every table): on `unsorted`, whose key 9
the bisection does not find, `count(9)` is 0; after `insertAll` of an empty
batch it is 1, although the batch has no row with key 9. -/
theorem insertAll_count_unsorted :
    unsorted.count 9 = 0 ∧ ([] : List (Row_t Nat Nat)).filter (fun r => decide (r.1 = 9)) = [] ∧
    (unsorted.insertAll []).count 9 = 1 := by
  decide


/-! ## `remove` -/

theorem vector_erase_split {α : Type} (xs : List α) (i : Nat) (r : α)
    (h : xs[i]? = some r) :
    xs = xs.take i ++ r :: xs.drop (i + 1) ∧
    (vector_erase xs i).take i = xs.take i ∧
    (vector_erase xs i).drop i = xs.drop (i + 1) := by
  obtain ⟨hlt, hr⟩ := List.getElem?_eq_some_iff.mp h
  have hl : (xs.take i).length = i := by rw [List.length_take]; omega
  refine ⟨?_, ?_, ?_⟩
  · have hd : xs.drop i = r :: xs.drop (i + 1) := by
      rw [List.drop_eq_getElem_cons hlt, hr]
    rw [← hd, List.take_append_drop]
  · unfold vector_erase
    exact List.take_left' hl
  · unfold vector_erase
    exact List.drop_left' hl

theorem filter_vector_erase {α : Type} (xs : List α) (i : Nat) (r : α) (p : α → Bool)
    (h : xs[i]? = some r) :
    (xs.filter p).length
      = ((vector_erase xs i).filter p).length + (if p r = true then 1 else 0) := by
  have hsplit := (vector_erase_split xs i r h).1
  have e1 : (xs.filter p).length
      = ((xs.take i).filter p).length + ((r :: xs.drop (i + 1)).filter p).length := by
    rw [← List.length_append, ← List.filter_append, ← hsplit]
  have e2 : ((vector_erase xs i).filter p).length
      = ((xs.take i).filter p).length + ((xs.drop (i + 1)).filter p).length := by
    unfold vector_erase
    rw [List.filter_append, List.length_append]
  rw [e1, e2]
  by_cases hp : p r = true
  · rw [List.filter_cons_of_pos hp, if_pos hp, List.length_cons]; omega
  · rw [List.filter_cons_of_neg hp, if_neg hp]; omega

namespace Table

variable {Key Value : Type}

/-- Claim C10: on a table sorted by key, `remove(k)` of a key that some row has
passes its assertion and erases exactly the row at `lower_bound(k)`, which is
the first row with key `k`; the other rows stay, unchanged and in order (the
old rows are the new rows with the erased row put back at that position); the
size drops by 1, `count(k)` drops by exactly 1 (in `size_t` arithmetic, and
exactly when the old size fits `size_t`) and `count` of every other key is
unchanged. -/
theorem remove_first_row_of_key [LinearOrder Key] [Inhabited Value] (t : Table Key Value)
    (k : Key) (hs : t.SortedByKey) (hk : ∃ r ∈ t._rows, r.1 = k) :
    ∃ t2 r, t.remove k = some t2 ∧
      t._rows[t.lower_bound k]? = some r ∧ r.1 = k ∧
      (∀ j r2, t._rows[j]? = some r2 → r2.1 = k → t.lower_bound k ≤ j) ∧
      t2._rows = t._rows.take (t.lower_bound k) ++ t._rows.drop (t.lower_bound k + 1) ∧
      t._rows = t2._rows.take (t.lower_bound k) ++ r :: t2._rows.drop (t.lower_bound k) ∧
      t2.size + 1 = t.size ∧
      t.count k = (t2.count k + 1) % size_t_modulus ∧
      (t.size < size_t_modulus → t2.count k + 1 = t.count k) ∧
      (∀ k2, k2 ≠ k → t2.count k2 = t.count k2) := by
  have hrem := remove_eq_some t k hs hk
  obtain ⟨r0, hr0, hr0k⟩ := hk
  obtain ⟨r, hr, hrk⟩ := row_at_lower_of_mem k default t._rows hs r0 hr0 hr0k
  have hr2 : t._rows[t.lower_bound k]? = some r := hr
  have hsp := vector_erase_split t._rows (t.lower_bound k) r hr2
  have hs2 : (⟨vector_erase t._rows (t.lower_bound k)⟩ : Table Key Value).SortedByKey :=
    vector_erase_sorted t._rows _ hs
  have hcount : ∀ k2, t.count k2
      = (((⟨vector_erase t._rows (t.lower_bound k)⟩ : Table Key Value)._rows.filter
          (fun x => decide (x.1 = k2))).length + (if r.1 = k2 then 1 else 0))
        % size_t_modulus := by
    intro k2
    rw [count_eq_mod t k2 hs,
      filter_vector_erase t._rows (t.lower_bound k) r (fun x => decide (x.1 = k2)) hr2]
    simp only [decide_eq_true_eq]
  refine ⟨⟨vector_erase t._rows (t.lower_bound k)⟩, r, hrem, hr2, hrk, ?_, rfl, ?_,
    size_remove t _ k hrem, ?_, ?_, ?_⟩
  · intro j r2 hj hk2
    by_contra hcon
    have := (rows_around_lower k default t._rows hs j r2 hj).1 (Nat.lt_of_not_le hcon)
    rw [hk2] at this
    exact lt_irrefl k this
  · show t._rows = (vector_erase t._rows (t.lower_bound k)).take (t.lower_bound k)
      ++ r :: (vector_erase t._rows (t.lower_bound k)).drop (t.lower_bound k)
    rw [hsp.2.1, hsp.2.2]
    exact hsp.1
  · rw [hcount k, if_pos hrk, count_eq_mod _ k hs2, Nat.mod_add_mod]
  · intro hfit
    have hle : ((⟨vector_erase t._rows (t.lower_bound k)⟩ : Table Key Value)._rows.filter
        (fun x => decide (x.1 = k))).length + 1 ≤ t.size := by
      have := filter_vector_erase t._rows (t.lower_bound k) r (fun x => decide (x.1 = k)) hr2
      have hb : (t._rows.filter (fun x => decide (x.1 = k))).length ≤ t._rows.length :=
        List.length_filter_le _ _
      have hone : (if decide (r.1 = k) = true then 1 else 0) = 1 := by
        rw [if_pos (by simpa using hrk)]
      rw [hone] at this
      show ((vector_erase t._rows (t.lower_bound k)).filter
        (fun x => decide (x.1 = k))).length + 1 ≤ t._rows.length
      omega
    rw [hcount k, if_pos hrk, count_eq_mod _ k hs2, Nat.mod_eq_of_lt (by omega),
      Nat.mod_eq_of_lt (by omega)]
  · intro k2 hne
    have hne2 : ¬ r.1 = k2 := by rw [hrk]; exact fun h => hne h.symm
    rw [hcount k2, if_neg hne2, count_eq_mod _ k2 hs2, Nat.add_zero]

end Table

/-- Instance of C10 at `sample`: `remove(2)` erases `(2, 20)`, the first of the
two rows with key 2. -/
theorem remove_first_row_of_key_witness :
    sample.SortedByKey ∧ (∃ r ∈ sample._rows, r.1 = 2) ∧
    ∃ t2 r, sample.remove 2 = some t2 ∧
      sample._rows[sample.lower_bound 2]? = some r ∧ r.1 = 2 ∧
      (∀ j r2, sample._rows[j]? = some r2 → r2.1 = 2 → sample.lower_bound 2 ≤ j) ∧
      t2._rows = sample._rows.take (sample.lower_bound 2)
        ++ sample._rows.drop (sample.lower_bound 2 + 1) ∧
      sample._rows = t2._rows.take (sample.lower_bound 2)
        ++ r :: t2._rows.drop (sample.lower_bound 2) ∧
      t2.size + 1 = sample.size ∧
      sample.count 2 = (t2.count 2 + 1) % size_t_modulus ∧
      (sample.size < size_t_modulus → t2.count 2 + 1 = sample.count 2) ∧
      (∀ k2, k2 ≠ 2 → t2.count k2 = sample.count k2) :=
  ⟨by decide, by decide, Table.remove_first_row_of_key sample 2 (by decide) (by decide)⟩

/-! ## The precondition checks of `remove` and read-only `operator[]` -/

namespace Table

variable {Key Value : Type}

/-- On sorted rows the test `found` at `std::lower_bound` succeeds exactly when
some row has the key. -/
theorem found_at_lower_iff [LinearOrder Key] (t : Table Key Value) (k : Key) (v : Value)
    (hs : t.SortedByKey) :
    t.found (std_lower_bound t._rows (k, v) less_than) k = true ↔ ∃ r ∈ t._rows, r.1 = k := by
  rw [found_iff]
  constructor
  · rintro ⟨r, hr, hk⟩
    exact ⟨r, List.getElem?_mem hr, hk⟩
  · rintro ⟨r, hr, hk⟩
    exact row_at_lower_of_mem k v t._rows hs r hr hk

/-- No row with key `k` sits before `std::lower_bound` of `k` on sorted rows. -/
theorem lower_le_of_key [LinearOrder Key] (k : Key) (v : Value)
    (xs : List (Row_t Key Value)) (hs : xs.Pairwise (fun a b => a.1 ≤ b.1)) (j : Nat)
    (r : Row_t Key Value) (hj : xs[j]? = some r) (hk : r.1 = k) :
    std_lower_bound xs (k, v) less_than ≤ j := by
  by_contra hcon
  have := (rows_around_lower k v xs hs j r hj).1 (Nat.lt_of_not_le hcon)
  rw [hk] at this
  exact lt_irrefl k this

/-- Claim C11: on a table sorted by key, `remove(k)` fails its assertion if and
only if no row has key `k`; it returns normally, with a new table, if and only
if some row has key `k`. -/
theorem remove_fails_iff_absent [LinearOrder Key] [Inhabited Value] (t : Table Key Value)
    (k : Key) (hs : t.SortedByKey) :
    (t.remove k = none ↔ ¬ ∃ r ∈ t._rows, r.1 = k) ∧
    ((∃ t2, t.remove k = some t2) ↔ ∃ r ∈ t._rows, r.1 = k) := by
  have hf := found_at_lower_iff t k default hs
  unfold remove
  simp only
  by_cases h : t.found (std_lower_bound t._rows (k, default) less_than) k = true
  · rw [if_pos h]
    have hex := hf.mp h
    constructor
    · constructor
      · intro hn; cases hn
      · intro hn; exact absurd hex hn
    · constructor
      · intro _; exact hex
      · intro _; exact ⟨_, rfl⟩
  · rw [if_neg h]
    have hnex : ¬ ∃ r ∈ t._rows, r.1 = k := fun hex => h (hf.mpr hex)
    constructor
    · constructor
      · intro _; exact hnex
      · intro _; rfl
    · constructor
      · rintro ⟨t2, h2⟩; cases h2
      · intro hex; exact absurd hex hnex

/-- Claim C14: on a table sorted by key, the read-only `operator[](k)` fails its
assertion if and only if no row has key `k`; when some row has key `k` it
returns the value of the row at `lower_bound(k)`, which has key `k` and is the
first such row in traversal order. -/
theorem operator_index_const_first_value [LinearOrder Key] [Inhabited Value]
    (t : Table Key Value) (k : Key) (hs : t.SortedByKey) :
    (t.operator_index_const k = none ↔ ¬ ∃ r ∈ t._rows, r.1 = k) ∧
    ((∃ r ∈ t._rows, r.1 = k) →
      ∃ r, t._rows[t.lower_bound k]? = some r ∧ r.1 = k ∧
        (∀ j r2, t._rows[j]? = some r2 → r2.1 = k → t.lower_bound k ≤ j) ∧
        t.operator_index_const k = some r.2) := by
  have hf := found_at_lower_iff t k default hs
  have hval : ∀ r, t._rows[t.lower_bound k]? = some r →
      t.value_at (std_lower_bound t._rows (k, default) less_than) = some r.2 := by
    intro r hr
    unfold value_at
    have hr2 : t._rows[std_lower_bound t._rows (k, default) less_than]? = some r := hr
    rw [hr2]
    rfl
  constructor
  · unfold operator_index_const
    simp only
    by_cases h : t.found (std_lower_bound t._rows (k, default) less_than) k = true
    · rw [if_pos h]
      obtain ⟨r, hr, _⟩ := (found_iff t _ k).mp h
      rw [hval r hr]
      constructor
      · intro hn; cases hn
      · intro hn; exact absurd (hf.mp h) hn
    · rw [if_neg h]
      constructor
      · intro _ hex; exact h (hf.mpr hex)
      · intro _; rfl
  · rintro ⟨r0, hr0, hr0k⟩
    obtain ⟨r, hr, hrk⟩ := row_at_lower_of_mem k default t._rows hs r0 hr0 hr0k
    refine ⟨r, hr, hrk, ?_, ?_⟩
    · intro j r2 hj hk2
      exact lower_le_of_key k default t._rows hs j r2 hj hk2
    · unfold operator_index_const
      simp only
      rw [if_pos (hf.mpr ⟨r0, hr0, hr0k⟩)]
      exact hval r hr

end Table

/-- Instance of C11 at `sample` and key 3, which no row has. -/
theorem remove_fails_iff_absent_witness :
    sample.SortedByKey ∧
    ((sample.remove 3 = none ↔ ¬ ∃ r ∈ sample._rows, r.1 = 3) ∧
    ((∃ t2, sample.remove 3 = some t2) ↔ ∃ r ∈ sample._rows, r.1 = 3)) :=
  ⟨by decide, Table.remove_fails_iff_absent sample 3 (by decide)⟩

/-- Instance of C14 at `sample` and key 2, whose first row holds 20. -/
theorem operator_index_const_first_value_witness :
    sample.SortedByKey ∧
    ((sample.operator_index_const 2 = none ↔ ¬ ∃ r ∈ sample._rows, r.1 = 2) ∧
    ((∃ r ∈ sample._rows, r.1 = 2) →
      ∃ r, sample._rows[sample.lower_bound 2]? = some r ∧ r.1 = 2 ∧
        (∀ j r2, sample._rows[j]? = some r2 → r2.1 = 2 → sample.lower_bound 2 ≤ j) ∧
        sample.operator_index_const 2 = some r.2)) :=
  ⟨by decide, Table.operator_index_const_first_value sample 2 (by decide)⟩

/-! ## The row placed by `insert` and by mutable `operator[]` -/

theorem filter_vector_insert {α : Type} (xs : List α) (i : Nat) (x : α) (p : α → Bool) :
    ((vector_insert xs i x).filter p).length
      = (xs.filter p).length + (if p x = true then 1 else 0) := by
  have e1 : (xs.filter p).length
      = ((xs.take i).filter p).length + ((xs.drop i).filter p).length := by
    rw [← List.length_append, ← List.filter_append, List.take_append_drop]
  unfold vector_insert
  rw [List.filter_append, List.length_append, e1]
  by_cases hp : p x = true
  · rw [List.filter_cons_of_pos hp, if_pos hp, List.length_cons]; omega
  · rw [List.filter_cons_of_neg hp, if_neg hp]; omega

theorem std_lower_bound_le_length {Key Value : Type} [LinearOrder Key] (k : Key) (v : Value)
    (xs : List (Row_t Key Value)) (hs : xs.Pairwise (fun a b => a.1 ≤ b.1)) :
    std_lower_bound xs (k, v) Table.less_than ≤ xs.length := by
  rw [std_lower_bound_sorted k v xs hs]
  exact List.length_filter_le _ _

/-- The search value's second component plays no part on sorted rows. -/
theorem std_lower_bound_value {Key Value : Type} [LinearOrder Key] (k : Key) (v w : Value)
    (xs : List (Row_t Key Value)) (hs : xs.Pairwise (fun a b => a.1 ≤ b.1)) :
    std_lower_bound xs (k, v) Table.less_than = std_lower_bound xs (k, w) Table.less_than := by
  rw [std_lower_bound_sorted k v xs hs, std_lower_bound_sorted k w xs hs]

/-- After a row with key `k` is placed at `std::lower_bound` of `k`, the search
for `k` stops at the same position, now the position of that row. -/
theorem std_lower_bound_after_insert {Key Value : Type} [LinearOrder Key] (k : Key)
    (v w u : Value) (xs : List (Row_t Key Value)) (hs : xs.Pairwise (fun a b => a.1 ≤ b.1)) :
    std_lower_bound
        (vector_insert xs (std_lower_bound xs (k, w) Table.less_than) (k, v)) (k, u)
        Table.less_than
      = std_lower_bound xs (k, w) Table.less_than := by
  have hs2 := vector_insert_sorted k v w xs hs
  rw [std_lower_bound_sorted k u _ hs2, filter_vector_insert,
    std_lower_bound_sorted k w xs hs]
  have hno : ¬ decide (((k, v) : Row_t Key Value).1 < k) = true := by simp
  rw [if_neg hno]
  rfl

namespace Table

variable {Key Value : Type}

theorem found_after_insert [LinearOrder Key] (k : Key) (v : Value)
    (xs : List (Row_t Key Value)) (i : Nat) (hi : i ≤ xs.length) :
    (⟨vector_insert xs i (k, v)⟩ : Table Key Value).found i k = true := by
  rw [found_iff]
  exact ⟨(k, v), getElem?_vector_insert xs i (k, v) hi, rfl⟩

theorem operator_index_present [LinearOrder Key] [Inhabited Value] (t : Table Key Value)
    (k : Key) (hs : t.SortedByKey) (hk : ∃ r ∈ t._rows, r.1 = k) :
    t.operator_index k = (t, t.lower_bound k) := by
  unfold operator_index
  simp only
  rw [if_pos ((found_at_lower_iff t k default hs).mpr hk)]
  rfl

theorem operator_index_absent [LinearOrder Key] [Inhabited Value] (t : Table Key Value)
    (k : Key) (hs : t.SortedByKey) (hk : ¬ ∃ r ∈ t._rows, r.1 = k) :
    t.operator_index k
      = (⟨vector_insert t._rows (t.lower_bound k) (k, default)⟩, t.lower_bound k) := by
  unfold operator_index
  simp only
  have hf : ¬ t.found (std_lower_bound t._rows (k, default) less_than) k = true :=
    fun h => hk ((found_at_lower_iff t k default hs).mp h)
  rw [if_neg hf]
  rfl

theorem mem_vector_insert {α : Type} (xs : List α) (i : Nat) (x : α) :
    x ∈ vector_insert xs i x := by
  unfold vector_insert
  exact List.mem_append_right _ (List.mem_cons_self x _)

/-- Get-or-insert on a sorted table, present key. -/
theorem operator_index_hit [LinearOrder Key] [Inhabited Value] (t : Table Key Value)
    (k : Key) (hs : t.SortedByKey) (hk : ∃ r ∈ t._rows, r.1 = k) :
    (t.operator_index k).1 = t ∧ (t.operator_index k).2 = t.lower_bound k ∧
    ∃ r, t._rows[t.lower_bound k]? = some r ∧ r.1 = k ∧
      (∀ j r2, t._rows[j]? = some r2 → r2.1 = k → t.lower_bound k ≤ j) ∧
      (t.operator_index k).1.value_at (t.operator_index k).2 = some r.2 := by
  rw [operator_index_present t k hs hk]
  obtain ⟨r0, hr0, hr0k⟩ := hk
  obtain ⟨r, hr, hrk⟩ := row_at_lower_of_mem k default t._rows hs r0 hr0 hr0k
  have hr2 : t._rows[t.lower_bound k]? = some r := hr
  refine ⟨rfl, rfl, r, hr2, hrk, ?_, ?_⟩
  · intro j r2 hj hk2
    exact lower_le_of_key k default t._rows hs j r2 hj hk2
  · show t.value_at (t.lower_bound k) = some r.2
    unfold value_at
    rw [hr2]
    rfl

/-- Get-or-insert on a sorted table, absent key. -/
theorem operator_index_miss [LinearOrder Key] [Inhabited Value] (t : Table Key Value)
    (k : Key) (hs : t.SortedByKey) (hk : ¬ ∃ r ∈ t._rows, r.1 = k) :
    (t.operator_index k).2 = t.lower_bound k ∧
    (t.operator_index k).1._rows
      = t._rows.take (t.lower_bound k) ++ (k, default) :: t._rows.drop (t.lower_bound k) ∧
    (t.operator_index k).1.erase (t.operator_index k).2 = t ∧
    (t.operator_index k).1.SortedByKey ∧
    (t.operator_index k).1._rows[(t.operator_index k).2]? = some (k, default) ∧
    (t.operator_index k).1.value_at (t.operator_index k).2 = some default ∧
    (t.operator_index k).1.size = t.size + 1 ∧
    (t.operator_index k).1.contains k = true := by
  have hle : t.lower_bound k ≤ t._rows.length := std_lower_bound_le_length k default t._rows hs
  have hget := getElem?_vector_insert t._rows (t.lower_bound k) (k, default) hle
  rw [operator_index_absent t k hs hk]
  refine ⟨rfl, rfl, ?_, vector_insert_sorted k default default t._rows hs, hget, ?_,
    length_vector_insert t._rows _ _, ?_⟩
  · show (⟨vector_erase (vector_insert t._rows (t.lower_bound k) (k, default))
      (t.lower_bound k)⟩ : Table Key Value) = t
    rw [vector_erase_insert t._rows _ _ hle]
  · show (⟨vector_insert t._rows (t.lower_bound k) (k, default)⟩ :
      Table Key Value).value_at (t.lower_bound k) = some default
    unfold value_at
    simp only
    rw [hget]
    rfl
  · show (⟨vector_insert t._rows (t.lower_bound k) (k, default)⟩ :
      Table Key Value).contains k = true
    unfold contains
    simp only
    exact (found_at_lower_iff _ k default
      (vector_insert_sorted k default default t._rows hs)).mpr
      ⟨(k, default), mem_vector_insert _ _ _, rfl⟩

end Table

/-- Claim C12 (get-or-insert): on a table sorted by key, mutable `operator[](k)`
(i) when some row has key `k`, leaves the table as it is and designates the row
at `lower_bound(k)`, the first row with key `k`, whose value it returns;
(ii) when no row has key `k`, inserts the one row `(k, Value())` at
`lower_bound(k)` (erasing the designated position gives back the old table, and
the new table is sorted), designates that row, returns the default value, raises
the size by 1 and makes `contains(k)` true.  Scenario C: on the empty table
`table[10]` leaves the single row `(10, Value())`, size 1 and `contains(10)`. -/
theorem operator_index_get_or_insert :
    (∀ {Key Value : Type} [LinearOrder Key] [Inhabited Value] (t : Table Key Value)
      (k : Key), t.SortedByKey →
      ((∃ r ∈ t._rows, r.1 = k) →
        (t.operator_index k).1 = t ∧ (t.operator_index k).2 = t.lower_bound k ∧
        ∃ r, t._rows[t.lower_bound k]? = some r ∧ r.1 = k ∧
          (∀ j r2, t._rows[j]? = some r2 → r2.1 = k → t.lower_bound k ≤ j) ∧
          (t.operator_index k).1.value_at (t.operator_index k).2 = some r.2) ∧
      ((¬ ∃ r ∈ t._rows, r.1 = k) →
        (t.operator_index k).2 = t.lower_bound k ∧
        (t.operator_index k).1._rows
          = t._rows.take (t.lower_bound k) ++ (k, default) :: t._rows.drop (t.lower_bound k) ∧
        (t.operator_index k).1.erase (t.operator_index k).2 = t ∧
        (t.operator_index k).1.SortedByKey ∧
        (t.operator_index k).1._rows[(t.operator_index k).2]? = some (k, default) ∧
        (t.operator_index k).1.value_at (t.operator_index k).2 = some default ∧
        (t.operator_index k).1.size = t.size + 1 ∧
        (t.operator_index k).1.contains k = true)) ∧
    (((⟨[]⟩ : Table Nat String).operator_index 10).1._rows = [(10, "")] ∧
      ((⟨[]⟩ : Table Nat String).operator_index 10).1.size = 1 ∧
      ((⟨[]⟩ : Table Nat String).operator_index 10).1.contains 10 = true) := by
  refine ⟨?_, by decide⟩
  intro Key Value _ _ t k hs
  exact ⟨Table.operator_index_hit t k hs, Table.operator_index_miss t k hs⟩

/-- Instance of C12 at `sample`: key 2 is present (first value 20), key 3 is not. -/
theorem operator_index_get_or_insert_witness :
    sample.SortedByKey ∧ (∃ r ∈ sample._rows, r.1 = 2) ∧ (¬ ∃ r ∈ sample._rows, r.1 = 3) ∧
    ((sample.operator_index 2).1 = sample ∧
      (sample.operator_index 2).2 = sample.lower_bound 2 ∧
      ∃ r, sample._rows[sample.lower_bound 2]? = some r ∧ r.1 = 2 ∧
        (∀ j r2, sample._rows[j]? = some r2 → r2.1 = 2 → sample.lower_bound 2 ≤ j) ∧
        (sample.operator_index 2).1.value_at (sample.operator_index 2).2 = some r.2) ∧
    (sample.operator_index 3).1.size = sample.size + 1 :=
  ⟨by decide, by decide, by decide,
    (operator_index_get_or_insert.1 sample 2 (by decide)).1 (by decide),
    ((operator_index_get_or_insert.1 sample 3 (by decide)).2 (by decide)).2.2.2.2.2.2.1⟩

theorem getElem?_vector_insert_after {α : Type} (xs : List α) (i j : Nat) (x : α)
    (hi : i ≤ xs.length) (hj : i ≤ j) : (vector_insert xs i x)[j + 1]? = xs[j]? := by
  unfold vector_insert
  have hl : (xs.take i).length = i := by rw [List.length_take]; omega
  rw [List.getElem?_append_right (by omega), hl]
  have e : j + 1 - i = (j - i) + 1 := by omega
  rw [e, List.getElem?_cons_succ, List.getElem?_drop]
  congr 1
  omega

namespace Table

variable {Key Value : Type}

/-- Claim C13 (get-or-insert idempotence): on a table sorted by key and a key `K`
that no row has, a second mutable `operator[](K)` right after the first returns
what the first returned and changes nothing: same table, same designated
position, same value (the default), and the size is the old size plus 1 after
the first call and still after the second. -/
theorem operator_index_twice [LinearOrder Key] [Inhabited Value] (t : Table Key Value)
    (K : Key) (hs : t.SortedByKey) (habs : ¬ ∃ r ∈ t._rows, r.1 = K) :
    ((t.operator_index K).1.operator_index K).1 = (t.operator_index K).1 ∧
    ((t.operator_index K).1.operator_index K).2 = (t.operator_index K).2 ∧
    ((t.operator_index K).1.operator_index K).1.value_at
        ((t.operator_index K).1.operator_index K).2
      = (t.operator_index K).1.value_at (t.operator_index K).2 ∧
    (t.operator_index K).1.value_at (t.operator_index K).2 = some default ∧
    (t.operator_index K).1.size = t.size + 1 ∧
    ((t.operator_index K).1.operator_index K).1.size = t.size + 1 := by
  have hmiss := operator_index_miss t K hs habs
  have hs1 : (t.operator_index K).1.SortedByKey := hmiss.2.2.2.1
  have hin : ∃ r ∈ (t.operator_index K).1._rows, r.1 = K :=
    ⟨(K, default), List.getElem?_mem hmiss.2.2.2.2.1, rfl⟩
  have hsecond := operator_index_present (t.operator_index K).1 K hs1 hin
  have hpos : (t.operator_index K).1.lower_bound K = (t.operator_index K).2 := by
    rw [operator_index_absent t K hs habs]
    exact std_lower_bound_after_insert K default default default t._rows hs
  rw [hsecond, hpos]
  exact ⟨rfl, rfl, rfl, hmiss.2.2.2.2.2.1, hmiss.2.2.2.2.2.2.1, hmiss.2.2.2.2.2.2.1⟩

/-- Claim C17: on a table sorted by key, after `insert(k, v)` the new row sits at
the returned position, which is `lower_bound(k)` of the new table; no row with
key `k` precedes it, every row that had key `k` before now sits one place to
the right of its old place and after the new row; so mutable `operator[](k)`
leaves the table as it is and designates the new row, and both it and the
read-only `operator[](k)` return `v`. -/
theorem insert_front_of_run [LinearOrder Key] [Inhabited Value] (t : Table Key Value)
    (k : Key) (v : Value) (hs : t.SortedByKey) :
    (t.insert k v).1.lower_bound k = (t.insert k v).2 ∧
    (t.insert k v).1._rows[(t.insert k v).2]? = some (k, v) ∧
    (∀ i r, (t.insert k v).1._rows[i]? = some r → r.1 = k → (t.insert k v).2 ≤ i) ∧
    (∀ j r, t._rows[j]? = some r → r.1 = k →
      (t.insert k v).2 < j + 1 ∧ (t.insert k v).1._rows[j + 1]? = some r) ∧
    (t.insert k v).1.operator_index k = ((t.insert k v).1, (t.insert k v).2) ∧
    (t.insert k v).1.value_at (t.insert k v).2 = some v ∧
    (t.insert k v).1.operator_index_const k = some v := by
  have hs1 : (t.insert k v).1.SortedByKey := insert_sorted t k v hs
  have hle : (t.insert k v).2 ≤ t._rows.length := std_lower_bound_le_length k v t._rows hs
  have hget : (t.insert k v).1._rows[(t.insert k v).2]? = some (k, v) :=
    getElem?_vector_insert t._rows _ (k, v) hle
  have hpos : (t.insert k v).1.lower_bound k = (t.insert k v).2 :=
    std_lower_bound_after_insert k v v default t._rows hs
  have hin : ∃ r ∈ (t.insert k v).1._rows, r.1 = k := ⟨(k, v), List.getElem?_mem hget, rfl⟩
  have hval : (t.insert k v).1.value_at (t.insert k v).2 = some v := by
    unfold value_at
    rw [hget]
    rfl
  refine ⟨hpos, hget, ?_, ?_, ?_, hval, ?_⟩
  · intro i r hi hk
    rw [← hpos]
    exact lower_le_of_key k default _ hs1 i r hi hk
  · intro j r hj hk
    have hpj : (t.insert k v).2 ≤ j := lower_le_of_key k v t._rows hs j r hj hk
    refine ⟨Nat.lt_succ_of_le hpj, ?_⟩
    rw [← hj]
    exact getElem?_vector_insert_after t._rows _ j (k, v) hle hpj
  · rw [operator_index_present _ k hs1 hin, hpos]
  · unfold operator_index_const
    simp only
    have hpos2 : std_lower_bound (t.insert k v).1._rows (k, default) less_than
        = (t.insert k v).2 := hpos
    rw [hpos2, if_pos ((found_iff _ _ k).mpr ⟨(k, v), hget, rfl⟩)]
    exact hval

/-- Claim C18: on a table sorted by key, `insert(k, v)` followed at once by
`remove(k)` passes the assertion of `remove` and gives back the original
table, row for row, whether or not `k` had rows before. -/
theorem insert_then_remove [LinearOrder Key] [Inhabited Value] (t : Table Key Value)
    (k : Key) (v : Value) (hs : t.SortedByKey) :
    (t.insert k v).1.remove k = some t := by
  have hle : (t.insert k v).2 ≤ t._rows.length := std_lower_bound_le_length k v t._rows hs
  have hget : (t.insert k v).1._rows[(t.insert k v).2]? = some (k, v) :=
    getElem?_vector_insert t._rows _ (k, v) hle
  have hpos : std_lower_bound (t.insert k v).1._rows (k, default) less_than
      = (t.insert k v).2 :=
    std_lower_bound_after_insert k v v default t._rows hs
  unfold remove
  simp only
  rw [hpos, if_pos ((found_iff _ _ k).mpr ⟨(k, v), hget, rfl⟩)]
  show some (⟨vector_erase (vector_insert t._rows (t.insert k v).2 (k, v))
    (t.insert k v).2⟩ : Table Key Value) = some t
  rw [vector_erase_insert t._rows _ (k, v) hle]

end Table

/-- Instance of C13 at `sample` and the absent key 3. -/
theorem operator_index_twice_witness :
    sample.SortedByKey ∧ (¬ ∃ r ∈ sample._rows, r.1 = 3) ∧
    (((sample.operator_index 3).1.operator_index 3).1 = (sample.operator_index 3).1 ∧
    ((sample.operator_index 3).1.operator_index 3).2 = (sample.operator_index 3).2 ∧
    ((sample.operator_index 3).1.operator_index 3).1.value_at
        ((sample.operator_index 3).1.operator_index 3).2
      = (sample.operator_index 3).1.value_at (sample.operator_index 3).2 ∧
    (sample.operator_index 3).1.value_at (sample.operator_index 3).2 = some default ∧
    (sample.operator_index 3).1.size = sample.size + 1 ∧
    ((sample.operator_index 3).1.operator_index 3).1.size = sample.size + 1) :=
  ⟨by decide, by decide, Table.operator_index_twice sample 3 (by decide) (by decide)⟩

/-- Instance of C17 at `sample`: `insert(2, 7)` lands before `(2, 20)` and `(2, 21)`. -/
theorem insert_front_of_run_witness :
    sample.SortedByKey ∧
    ((sample.insert 2 7).1.lower_bound 2 = (sample.insert 2 7).2 ∧
    (sample.insert 2 7).1._rows[(sample.insert 2 7).2]? = some (2, 7) ∧
    (∀ i r, (sample.insert 2 7).1._rows[i]? = some r → r.1 = 2 → (sample.insert 2 7).2 ≤ i) ∧
    (∀ j r, sample._rows[j]? = some r → r.1 = 2 →
      (sample.insert 2 7).2 < j + 1 ∧ (sample.insert 2 7).1._rows[j + 1]? = some r) ∧
    (sample.insert 2 7).1.operator_index 2 = ((sample.insert 2 7).1, (sample.insert 2 7).2) ∧
    (sample.insert 2 7).1.value_at (sample.insert 2 7).2 = some 7 ∧
    (sample.insert 2 7).1.operator_index_const 2 = some 7) :=
  ⟨by decide, Table.insert_front_of_run sample 2 7 (by decide)⟩

/-- Instance of C18 at `sample`: `insert(2, 7)` then `remove(2)`. -/
theorem insert_then_remove_witness :
    sample.SortedByKey ∧ (sample.insert 2 7).1.remove 2 = some sample :=
  ⟨by decide, Table.insert_then_remove sample 2 7 (by decide)⟩

/-! ## Rows that survive later operations -/

theorem vector_insert_perm {α : Type} (xs : List α) (i : Nat) (x : α) :
    List.Perm (vector_insert xs i x) (x :: xs) := by
  unfold vector_insert
  have h : List.Perm (xs.take i ++ x :: xs.drop i) (x :: (xs.take i ++ xs.drop i)) :=
    List.perm_middle
  rw [List.take_append_drop] at h
  exact h

theorem mem_vector_insert_of_mem {α : Type} (xs : List α) (i : Nat) (x y : α)
    (h : y ∈ xs) : y ∈ vector_insert xs i x :=
  (vector_insert_perm xs i x).mem_iff.mpr (List.mem_cons_of_mem x h)

theorem mem_vector_erase_of_ne {α : Type} (xs : List α) (i : Nat) (r y : α)
    (hi : xs[i]? = some r) (hne : y ≠ r) (h : y ∈ xs) : y ∈ vector_erase xs i := by
  have hsplit := (vector_erase_split xs i r hi).1
  rw [hsplit] at h
  unfold vector_erase
  rcases List.mem_append.mp h with h1 | h2
  · exact List.mem_append_left _ h1
  · rcases List.mem_cons.mp h2 with h3 | h4
    · exact absurd h3 hne
    · exact List.mem_append_right _ h4

namespace Table

variable {Key Value : Type}

theorem mem_operator_index [LinearOrder Key] [Inhabited Value] (t : Table Key Value)
    (k : Key) (y : Row_t Key Value) (h : y ∈ t._rows) : y ∈ (t.operator_index k).1._rows := by
  unfold operator_index
  simp only
  split
  · exact h
  · exact mem_vector_insert_of_mem t._rows _ _ y h

theorem mem_remove [LinearOrder Key] [Inhabited Value] (t t2 : Table Key Value) (k : Key)
    (y : Row_t Key Value) (hr : t.remove k = some t2) (hne : y.1 ≠ k) (h : y ∈ t._rows) :
    y ∈ t2._rows := by
  unfold remove at hr
  simp only at hr
  split at hr
  · rename_i hf
    cases hr
    obtain ⟨r, hget, hrk⟩ := (found_iff t _ k).mp hf
    have hyr : y ≠ r := by
      intro e
      rw [e] at hne
      exact hne hrk
    exact mem_vector_erase_of_ne t._rows _ r y hget hyr h
  · cases hr

/-- A stored row lies inside the equal range of its key on a sorted table. -/
theorem mem_equal_range [LinearOrder Key] [Inhabited Value] (t : Table Key Value)
    (y : Row_t Key Value) (hs : t.SortedByKey) (h : y ∈ t._rows) :
    ∃ i, (t.equal_range y.1).1 ≤ i ∧ i < (t.equal_range y.1).2 ∧ t._rows[i]? = some y := by
  obtain ⟨i, hi⟩ := List.getElem?_of_mem h
  refine ⟨i, lower_le_of_key y.1 default t._rows hs i y hi rfl, ?_, hi⟩
  show i < t.upper_bound y.1
  by_contra hcon
  have := (rows_around_upper y.1 default t._rows hs i y hi).2 (Nat.le_of_not_lt hcon)
  exact lt_irrefl _ this

end Table

theorem mem_modify_of_ne {α : Type} (f : α → α) (xs : List α) (i : Nat) (y : α)
    (hne : ∀ r, xs[i]? = some r → y ≠ r) (h : y ∈ xs) : y ∈ xs.modify f i := by
  obtain ⟨j, hj⟩ := List.getElem?_of_mem h
  by_cases hij : i = j
  · subst hij
    exact absurd rfl (hne y hj)
  · have : (xs.modify f i)[j]? = some y := by
      rw [List.getElem?_modify_ne f xs hij]
      exact hj
    exact List.getElem?_mem this

/-- The row designated by mutable `operator[](key)` on a sorted table has key `key`. -/
theorem operator_index_row_key {Key Value : Type} [LinearOrder Key] [Inhabited Value]
    (t : Table Key Value) (key : Key) (hs : t.SortedByKey) (r : Row_t Key Value)
    (hr : (t.operator_index key).1._rows[(t.operator_index key).2]? = some r) :
    r.1 = key := by
  by_cases hk : ∃ r ∈ t._rows, r.1 = key
  · obtain ⟨_, _, r2, hr2, hr2k, _, _⟩ := Table.operator_index_hit t key hs hk
    rw [Table.operator_index_present t key hs hk] at hr
    have hr3 : t._rows[t.lower_bound key]? = some r := hr
    rw [hr2] at hr3
    cases hr3
    exact hr2k
  · have hm := (Table.operator_index_miss t key hs hk).2.2.2.2.1
    rw [hm] at hr
    cases hr
    rfl

/-- The invariant behind the round trip: sorted rows that still hold `(K, V)`. -/
theorem keepsKey_invariant {Key Value : Type} [LinearOrder Key] [LinearOrder Value]
    [Inhabited Value] (K : Key) (V : Value) (t0 t2 : Table Key Value)
    (h0 : t0.SortedByKey ∧ (K, V) ∈ t0._rows) (h : KeepsKey K t0 t2) :
    t2.SortedByKey ∧ (K, V) ∈ t2._rows := by
  induction h with
  | start => exact h0
  | insert t k v _ ih =>
    exact ⟨Table.insert_sorted t k v ih.1, mem_vector_insert_of_mem t._rows _ _ _ ih.2⟩
  | insertAll t rows _ ih =>
    exact ⟨Table.insertAll_sorted t rows,
      (Table.insertAll_perm t rows).mem_iff.mpr (List.mem_append_left _ ih.2)⟩
  | operator_index t k _ ih =>
    exact ⟨Table.operator_index_sorted t k ih.1, Table.mem_operator_index t k _ ih.2⟩
  | operator_index_assign t k v _ hne ih =>
    have hs1 := Table.operator_index_sorted t k ih.1
    refine ⟨Table.assign_at_sorted _ _ v hs1, ?_⟩
    refine mem_modify_of_ne _ _ _ _ ?_ (Table.mem_operator_index t k _ ih.2)
    intro r hr e
    have hrk := operator_index_row_key t k ih.1 r hr
    rw [← e] at hrk
    exact hne hrk.symm
  | remove t t3 k _ hne hr ih =>
    exact ⟨Table.remove_sorted t t3 k ih.1 hr,
      Table.mem_remove t t3 k (K, V) hr (fun e => hne e.symm) ih.2⟩
  | erase t i r _ hget hne ih =>
    have hyr : ((K, V) : Row_t Key Value) ≠ r := by
      intro e
      rw [← e] at hne
      exact hne rfl
    exact ⟨Table.erase_sorted t i ih.1, mem_vector_erase_of_ne t._rows i r _ hget hyr ih.2⟩

/-- Claim C15 (round-trip lookup): on a table sorted by key, after `insert(K, V)`
and any finite sequence of `insert`, `insertAll` and mutable `operator[]` calls
(also with a value assigned through the result, for keys other than `K`) and of
`remove` and `erase` calls that remove a row whose key is not `K`, `contains(K)`
is true and a row `(K, V)` sits at a position inside `equal_range(K)`. -/
theorem round_trip_lookup {Key Value : Type} [LinearOrder Key] [LinearOrder Value]
    [Inhabited Value] (t t2 : Table Key Value) (K : Key) (V : Value) (hs : t.SortedByKey)
    (h : KeepsKey K (t.insert K V).1 t2) :
    t2.contains K = true ∧
    ∃ i, (t2.equal_range K).1 ≤ i ∧ i < (t2.equal_range K).2 ∧ t2._rows[i]? = some (K, V) := by
  have h0 : (t.insert K V).1.SortedByKey ∧ (K, V) ∈ (t.insert K V).1._rows :=
    ⟨Table.insert_sorted t K V hs, Table.mem_vector_insert t._rows _ (K, V)⟩
  obtain ⟨hs2, hmem⟩ := keepsKey_invariant K V _ t2 h0 h
  constructor
  · unfold Table.contains
    simp only
    exact (Table.found_at_lower_iff t2 K default hs2).mpr ⟨(K, V), hmem, rfl⟩
  · exact Table.mem_equal_range t2 (K, V) hs2 hmem

/-- Instance of C15: from `sample`, `insert(2, 7)`, then `insert(2, 9)`,
`insertAll({(0, 1)})`, `table[3]`, `remove(1)`, `erase(begin())` and
`table[4] = 41`. -/
theorem round_trip_lookup_witness :
    sample.SortedByKey ∧
    KeepsKey 2 (sample.insert 2 7).1
      (⟨[(2, 7), (2, 9), (2, 20), (2, 21), (3, 0), (4, 41)]⟩ : Table Nat Nat) ∧
    ((⟨[(2, 7), (2, 9), (2, 20), (2, 21), (3, 0), (4, 41)]⟩ : Table Nat Nat).contains 2 = true ∧
    ∃ i, ((⟨[(2, 7), (2, 9), (2, 20), (2, 21), (3, 0), (4, 41)]⟩ :
          Table Nat Nat).equal_range 2).1 ≤ i ∧
      i < ((⟨[(2, 7), (2, 9), (2, 20), (2, 21), (3, 0), (4, 41)]⟩ :
          Table Nat Nat).equal_range 2).2 ∧
      (⟨[(2, 7), (2, 9), (2, 20), (2, 21), (3, 0), (4, 41)]⟩ :
          Table Nat Nat)._rows[i]? = some (2, 7)) :=
  have h1 : KeepsKey 2 (sample.insert 2 7).1
      (⟨[(1, 10), (2, 9), (2, 7), (2, 20), (2, 21), (4, 40)]⟩ : Table Nat Nat) :=
    KeepsKey.insert ⟨[(1, 10), (2, 7), (2, 20), (2, 21), (4, 40)]⟩ 2 9 KeepsKey.start
  have h2 : KeepsKey 2 (sample.insert 2 7).1
      (⟨[(0, 1), (1, 10), (2, 7), (2, 9), (2, 20), (2, 21), (4, 40)]⟩ : Table Nat Nat) :=
    KeepsKey.insertAll ⟨[(1, 10), (2, 9), (2, 7), (2, 20), (2, 21), (4, 40)]⟩ [(0, 1)] h1
  have h3 : KeepsKey 2 (sample.insert 2 7).1
      (⟨[(0, 1), (1, 10), (2, 7), (2, 9), (2, 20), (2, 21), (3, 0), (4, 40)]⟩ :
        Table Nat Nat) :=
    KeepsKey.operator_index ⟨[(0, 1), (1, 10), (2, 7), (2, 9), (2, 20), (2, 21), (4, 40)]⟩ 3 h2
  have h4 : KeepsKey 2 (sample.insert 2 7).1
      (⟨[(0, 1), (2, 7), (2, 9), (2, 20), (2, 21), (3, 0), (4, 40)]⟩ : Table Nat Nat) :=
    KeepsKey.remove ⟨[(0, 1), (1, 10), (2, 7), (2, 9), (2, 20), (2, 21), (3, 0), (4, 40)]⟩
      _ 1 h3 (by decide) (by decide)
  have h5 : KeepsKey 2 (sample.insert 2 7).1
      (⟨[(2, 7), (2, 9), (2, 20), (2, 21), (3, 0), (4, 40)]⟩ : Table Nat Nat) :=
    KeepsKey.erase ⟨[(0, 1), (2, 7), (2, 9), (2, 20), (2, 21), (3, 0), (4, 40)]⟩ 0 (0, 1)
      h4 (by decide) (by decide)
  have h6 : KeepsKey 2 (sample.insert 2 7).1
      (⟨[(2, 7), (2, 9), (2, 20), (2, 21), (3, 0), (4, 41)]⟩ : Table Nat Nat) :=
    KeepsKey.operator_index_assign ⟨[(2, 7), (2, 9), (2, 20), (2, 21), (3, 0), (4, 40)]⟩ 4 41
      h5 (by decide)
  ⟨by decide, h6, round_trip_lookup sample _ 2 7 (by decide) h6⟩

/-! ## Inserting rows with distinct keys one by one -/

theorem insert_each_sorted_perm {Key Value : Type} [LinearOrder Key]
    (rows : List (Row_t Key Value)) :
    ∀ t : Table Key Value, t.SortedByKey →
      (insert_each t rows).SortedByKey ∧
      List.Perm (insert_each t rows)._rows (t._rows ++ rows) := by
  induction rows with
  | nil =>
    intro t hs
    exact ⟨hs, by rw [List.append_nil]; exact List.Perm.refl _⟩
  | cons r rs ih =>
    intro t hs
    have hstep : insert_each t (r :: rs) = insert_each (t.insert r.1 r.2).1 rs := rfl
    obtain ⟨h1, h2⟩ := ih (t.insert r.1 r.2).1 (Table.insert_sorted t r.1 r.2 hs)
    rw [hstep]
    refine ⟨h1, h2.trans ?_⟩
    have h3 : List.Perm (t.insert r.1 r.2).1._rows (r :: t._rows) :=
      vector_insert_perm t._rows _ (r.1, r.2)
    exact (h3.append_right rs).trans List.perm_middle.symm

/-- Rows sorted by key with pairwise distinct keys are in strictly ascending key order. -/
theorem strictly_sorted_of_nodup {Key Value : Type} [LinearOrder Key]
    (xs : List (Row_t Key Value)) (hs : xs.Pairwise (fun a b => a.1 ≤ b.1))
    (hnd : (xs.map Prod.fst).Nodup) : xs.Pairwise (fun a b => a.1 < b.1) := by
  have hne : xs.Pairwise (fun a b => a.1 ≠ b.1) := List.pairwise_map.mp hnd
  exact (hs.and hne).imp (fun h => lt_of_le_of_ne h.1 h.2)

/-- Two arrangements of the same rows in strictly ascending key order are equal. -/
theorem strictly_sorted_unique {Key Value : Type} [LinearOrder Key]
    (xs ys : List (Row_t Key Value)) (hp : List.Perm xs ys)
    (hx : xs.Pairwise (fun a b => a.1 < b.1)) (hy : ys.Pairwise (fun a b => a.1 < b.1)) :
    xs = ys := by
  haveI : IsAntisymm (Row_t Key Value) (fun a b => a.1 < b.1) :=
    ⟨fun a b hab hba => absurd hab (not_lt_of_gt hba)⟩
  exact List.eq_of_perm_of_sorted hp hx hy

theorem insert_each_strict {Key Value : Type} [LinearOrder Key]
    (rows : List (Row_t Key Value)) (hnd : (rows.map Prod.fst).Nodup) :
    List.Perm (insert_each ⟨[]⟩ rows).traversal rows ∧
    List.Pairwise (fun a b => a.1 < b.1) (insert_each ⟨[]⟩ rows).traversal := by
  obtain ⟨h1, h2⟩ := insert_each_sorted_perm rows ⟨[]⟩ List.Pairwise.nil
  have hp : List.Perm (insert_each ⟨[]⟩ rows)._rows rows := by
    rw [List.nil_append] at h2
    exact h2
  refine ⟨hp, strictly_sorted_of_nodup _ h1 ?_⟩
  exact ((hp.map Prod.fst).nodup_iff).mpr hnd

/-- Claim C16: for every list of rows with pairwise distinct keys, inserting them
one by one with `insert` into an empty table gives a traversal that is a
rearrangement of those rows in strictly ascending key order; there is only one
such rearrangement, and every order of insertion of the same rows gives the
same table.  Scenario A: `insert(1, "a")`, `insert(3, "c")`, `insert(2, "b")`
gives the traversal `(1, "a"), (2, "b"), (3, "c")`. -/
theorem insert_each_ascending :
    (∀ {Key Value : Type} [LinearOrder Key] (rows : List (Row_t Key Value)),
      (rows.map Prod.fst).Nodup →
      List.Perm (insert_each ⟨[]⟩ rows).traversal rows ∧
      List.Pairwise (fun a b => a.1 < b.1) (insert_each ⟨[]⟩ rows).traversal ∧
      (∀ l : List (Row_t Key Value), List.Perm l rows →
        List.Pairwise (fun a b => a.1 < b.1) l → l = (insert_each ⟨[]⟩ rows).traversal) ∧
      (∀ rows2 : List (Row_t Key Value), List.Perm rows2 rows →
        insert_each ⟨[]⟩ rows2 = insert_each ⟨[]⟩ rows)) ∧
    (insert_each (⟨[]⟩ : Table Nat String) [(1, "a"), (3, "c"), (2, "b")]).traversal
      = [(1, "a"), (2, "b"), (3, "c")] := by
  refine ⟨?_, by decide⟩
  intro Key Value _ rows hnd
  obtain ⟨hp, hstrict⟩ := insert_each_strict rows hnd
  refine ⟨hp, hstrict, ?_, ?_⟩
  · intro l hl hls
    exact strictly_sorted_unique l _ (hl.trans hp.symm) hls hstrict
  · intro rows2 hp2
    have hnd2 : (rows2.map Prod.fst).Nodup := ((hp2.map Prod.fst).nodup_iff).mpr hnd
    obtain ⟨hq, hstrict2⟩ := insert_each_strict rows2 hnd2
    have heq : (insert_each ⟨[]⟩ rows2)._rows = (insert_each ⟨[]⟩ rows)._rows :=
      strictly_sorted_unique _ _ ((hq.trans hp2).trans hp.symm) hstrict2 hstrict
    cases h1 : insert_each (⟨[]⟩ : Table Key Value) rows2
    cases h2 : insert_each (⟨[]⟩ : Table Key Value) rows
    rw [h1, h2] at heq
    simp only at heq
    rw [heq]

/-- Instance of C16 at the rows `(4, 40), (1, 10), (3, 30)`. -/
theorem insert_each_ascending_witness :
    ([((4 : Nat), (40 : Nat)), (1, 10), (3, 30)].map Prod.fst).Nodup ∧
    (List.Perm (insert_each ⟨[]⟩ [((4 : Nat), (40 : Nat)), (1, 10), (3, 30)]).traversal
        [(4, 40), (1, 10), (3, 30)] ∧
      List.Pairwise (fun a b => a.1 < b.1)
        (insert_each ⟨[]⟩ [((4 : Nat), (40 : Nat)), (1, 10), (3, 30)]).traversal) :=
  ⟨by decide,
    (insert_each_ascending.1 [((4 : Nat), (40 : Nat)), (1, 10), (3, 30)] (by decide)).1,
    (insert_each_ascending.1 [((4 : Nat), (40 : Nat)), (1, 10), (3, 30)] (by decide)).2.1⟩

/-! ## `insertAll` orders whole rows -/

theorem pair_less_antisymm {Key Value : Type} [LinearOrder Key] [LinearOrder Value]
    (a b : Key × Value) (hab : pair_less b a = false) (hba : pair_less a b = false) :
    a = b := by
  rw [pair_less_eq_false_iff] at hab hba
  rcases hab with h1 | ⟨h1, h1v⟩
  · rcases hba with h2 | ⟨h2, _⟩
    · exact absurd h1 (not_lt_of_gt h2)
    · rw [h2] at h1
      exact absurd h1 (lt_irrefl _)
  · rcases hba with h2 | ⟨_, h2v⟩
    · rw [h1] at h2
      exact absurd h2 (lt_irrefl _)
    · exact Prod.ext h1 (le_antisymm h1v h2v)

/-- The result of `std::sort` depends only on the multiset of the elements. -/
theorem std_sort_eq_of_perm {Key Value : Type} [LinearOrder Key] [LinearOrder Value]
    (xs ys : List (Key × Value)) (h : List.Perm xs ys) : std_sort xs = std_sort ys := by
  haveI : IsAntisymm (Key × Value) (fun a b => pair_less b a = false) :=
    ⟨pair_less_antisymm⟩
  exact List.eq_of_perm_of_sorted (((std_sort_perm xs).trans h).trans (std_sort_perm ys).symm)
    (std_sort_pairwise xs) (std_sort_pairwise ys)

theorem lexSorted_iff {Key Value : Type} [LinearOrder Key] [LinearOrder Value]
    (t : Table Key Value) :
    LexSorted t ↔ t._rows.Pairwise (fun a b => pair_less b a = false) := by
  unfold LexSorted
  constructor
  · intro h
    exact h.imp (fun {a b} hab => (pair_less_eq_false_iff a b).mpr hab)
  · intro h
    exact h.imp (fun {a b} hab => (pair_less_eq_false_iff a b).mp hab)

namespace Table

variable {Key Value : Type}

theorem insertAll_lexSorted [LinearOrder Key] [LinearOrder Value] (t : Table Key Value)
    (batch : List (Row_t Key Value)) : LexSorted (t.insertAll batch) :=
  (lexSorted_iff _).mpr (std_sort_pairwise _)

theorem insertAll_nil_eq_iff [LinearOrder Key] [LinearOrder Value] (t : Table Key Value) :
    t.insertAll [] = t ↔ LexSorted t := by
  constructor
  · intro h
    have := insertAll_lexSorted t []
    rw [h] at this
    exact this
  · intro h
    have hsort : std_sort (t._rows ++ []) = t._rows := by
      rw [List.append_nil]
      exact List.Sorted.insertionSort_eq ((lexSorted_iff t).mp h)
    show (⟨std_sort (t._rows ++ [])⟩ : Table Key Value) = t
    rw [hsort]

theorem operator_index_const_present [LinearOrder Key] [Inhabited Value]
    (t : Table Key Value) (k : Key) (r : Row_t Key Value)
    (hr : t._rows[t.lower_bound k]? = some r) (hk : r.1 = k) :
    t.operator_index_const k = some r.2 := by
  have hr2 : t._rows[std_lower_bound t._rows (k, default) less_than]? = some r := hr
  unfold operator_index_const
  simp only
  rw [if_pos ((found_iff t _ k).mpr ⟨r, hr2, hk⟩)]
  unfold value_at
  rw [hr2]
  rfl

/-- On rows in lexicographic order both `operator[]` return, for a present key,
the least value stored under the key. -/
theorem least_value_at_lower [LinearOrder Key] [LinearOrder Value] [Inhabited Value]
    (t : Table Key Value) (k : Key) (hl : LexSorted t) (hk : ∃ r ∈ t._rows, r.1 = k) :
    ∃ v, (k, v) ∈ t._rows ∧ (∀ w, (k, w) ∈ t._rows → v ≤ w) ∧
      t.operator_index_const k = some v ∧
      (t.operator_index k).1 = t ∧
      (t.operator_index k).1.value_at (t.operator_index k).2 = some v := by
  have hs : t.SortedByKey := by
    unfold SortedByKey
    unfold LexSorted at hl
    refine hl.imp ?_
    intro a b hab
    rcases hab with h | ⟨h, _⟩
    · exact le_of_lt h
    · exact le_of_eq h
  obtain ⟨hsame, _, r, hr, hrk, _, hval⟩ := operator_index_hit t k hs hk
  have hreq : r = (k, r.2) := Prod.ext hrk rfl
  refine ⟨r.2, ?_, ?_, operator_index_const_present t k r hr hrk, hsame, hval⟩
  · rw [← hreq]
    exact List.getElem?_mem hr
  · intro w hw
    obtain ⟨j, hj⟩ := List.getElem?_of_mem hw
    have hle : t.lower_bound k ≤ j := lower_le_of_key k default t._rows hs j (k, w) hj rfl
    obtain ⟨hjlt, hjw⟩ := List.getElem?_eq_some_iff.mp hj
    obtain ⟨hllt, hlr⟩ := List.getElem?_eq_some_iff.mp hr
    rcases Nat.eq_or_lt_of_le hle with heq | hlt
    · have hrw : r = (k, w) := by
        rw [← hlr, ← hjw]
        congr 1
      rw [hrw]
    · have hp := List.pairwise_iff_getElem.mp hl _ _ hllt hjlt hlt
      rw [hlr, hjw] at hp
      rcases hp with h | ⟨_, h⟩
      · rw [hrk] at h
        exact absurd h (lt_irrefl k)
      · exact h

end Table

/-- Claim C19: `insertAll` orders whole rows.  For every table and batch, after
`insertAll(batch)` all rows, old and new, are in non-decreasing lexicographic
order of (key, then value); the resulting table depends only on the multiset of
old and batch rows; for a key that some old or batch row has, both `operator[]`
return the least value stored under that key, the mutable one without changing
the table; and `insertAll` of an empty batch leaves a table as it is exactly
when its rows were already in lexicographic order.  On `ties`, sorted by key
with the rows `(1, 5), (1, 3)` in that order, an empty batch swaps the two. -/
theorem insertAll_lexicographic :
    (∀ {Key Value : Type} [LinearOrder Key] [LinearOrder Value] [Inhabited Value]
      (t : Table Key Value) (batch : List (Row_t Key Value)),
      LexSorted (t.insertAll batch) ∧
      (∀ (t2 : Table Key Value) (batch2 : List (Row_t Key Value)),
        List.Perm (t2._rows ++ batch2) (t._rows ++ batch) →
        t2.insertAll batch2 = t.insertAll batch) ∧
      (∀ k : Key, (∃ r ∈ t._rows ++ batch, r.1 = k) →
        ∃ v, (k, v) ∈ t._rows ++ batch ∧ (∀ w, (k, w) ∈ t._rows ++ batch → v ≤ w) ∧
          (t.insertAll batch).operator_index_const k = some v ∧
          ((t.insertAll batch).operator_index k).1 = t.insertAll batch ∧
          ((t.insertAll batch).operator_index k).1.value_at
            ((t.insertAll batch).operator_index k).2 = some v) ∧
      (t.insertAll [] = t ↔ LexSorted t)) ∧
    (ties.SortedByKey ∧ ¬ LexSorted ties ∧
      (ties.insertAll [])._rows = [(1, 3), (1, 5), (2, 0)] ∧ ties.insertAll [] ≠ ties) := by
  refine ⟨?_, by decide⟩
  intro Key Value _ _ _ t batch
  have hperm := Table.insertAll_perm t batch
  refine ⟨Table.insertAll_lexSorted t batch, ?_, ?_, Table.insertAll_nil_eq_iff t⟩
  · intro t2 batch2 hp
    show (⟨std_sort (t2._rows ++ batch2)⟩ : Table Key Value) = ⟨std_sort (t._rows ++ batch)⟩
    rw [std_sort_eq_of_perm _ _ hp]
  · rintro k ⟨r, hr, hrk⟩
    obtain ⟨v, hv, hmin, h1, h2, h3⟩ := Table.least_value_at_lower (t.insertAll batch) k
      (Table.insertAll_lexSorted t batch) ⟨r, hperm.mem_iff.mpr hr, hrk⟩
    exact ⟨v, hperm.mem_iff.mp hv, fun w hw => hmin w (hperm.mem_iff.mpr hw), h1, h2, h3⟩

/-- Instance of C19 at `ties` with the batch `{(1, 4)}` and key 1: the least
value under key 1 is returned. -/
theorem insertAll_lexicographic_witness :
    (∃ r ∈ ties._rows ++ [((1 : Nat), (4 : Nat))], r.1 = 1) ∧
    ∃ v, (1, v) ∈ ties._rows ++ [((1 : Nat), (4 : Nat))] ∧
      (∀ w, (1, w) ∈ ties._rows ++ [((1 : Nat), (4 : Nat))] → v ≤ w) ∧
      (ties.insertAll [(1, 4)]).operator_index_const 1 = some v ∧
      ((ties.insertAll [(1, 4)]).operator_index 1).1 = ties.insertAll [(1, 4)] ∧
      ((ties.insertAll [(1, 4)]).operator_index 1).1.value_at
        ((ties.insertAll [(1, 4)]).operator_index 1).2 = some v :=
  ⟨by decide, (insertAll_lexicographic.1 ties [(1, 4)]).2.2.1 1 (by decide)⟩

/-! ## The test driver -/

theorem foldl_main_body (tests : List Test_t) :
    ∀ s : MainState,
      (tests.foldl main_body s).passed = s.passed ∧
      (tests.foldl main_body s).out
        = s.out ++ tests.map
            (fun test => test.name ++ " : " ++ (if test.run () then "passed" else "failed")) := by
  induction tests with
  | nil => intro s; simp
  | cons test rest ih =>
    intro s
    rw [List.foldl_cons]
    obtain ⟨h1, h2⟩ := ih (main_body s test)
    refine ⟨h1, ?_⟩
    rw [h2]
    simp [main_body]

/-- Claim C20 on the code as written.  For every list of registered checks the
driver runs each check once, prints one line per check, in registration order,
with the outcome of that check, and then a summary whose count of passed checks
is 0 whatever the checks returned, `passed` being never incremented.  For the
two registered checks, of which "True" returns true, the output is
`True : passed`, `False : failed`, `0 of 2 passed`, not 1 of 2. -/
theorem main_reports_zero_passed :
    (∀ tests : List Test_t,
      (run_tests tests).passed = 0 ∧
      (run_tests tests).out
        = tests.map
            (fun test => test.name ++ " : " ++ (if test.run () then "passed" else "failed"))
          ++ [toString 0 ++ " of " ++ toString tests.length ++ " passed"]) ∧
    ((prepareTests []).map (fun test => test.name) = ["True", "False"] ∧
      ((prepareTests []).filter (fun test => test.run ())).length = 1 ∧
      main.passed = 0 ∧
      main.out = ["True : passed", "False : failed", "0 of 2 passed"]) := by
  refine ⟨?_, by decide⟩
  intro tests
  obtain ⟨h1, h2⟩ := foldl_main_body tests ⟨0, []⟩
  constructor
  · exact h1
  · show (tests.foldl main_body ⟨0, []⟩).out
        ++ [toString (tests.foldl main_body ⟨0, []⟩).passed ++ " of "
          ++ toString tests.length ++ " passed"] = _
    rw [h1, h2]
    rfl

end FlatMultimap
